import Mathlib

set_option maxHeartbeats 1000000

/-!
Verification of the UAX #29 default word-boundary library.

The embedding models JavaScript strings as lists of UTF-16 code units
(`List Nat`).  The boundary engine `findBoundaries` below is translated from
`src/findBoundaries.ts`; the span and word producers (`findSpans`, `split`,
`isNonSpace`) from `src/index.ts`; the binary-search property resolver
(`searchForProperty`) from `src/index.ts`; and the packed dense-lookup
resolver (`createLookupTable`, `lookupProperty`, `property`) from
`src/findBoundaries.ts`.

The generated table `gen/WordBreakProperty.ts` is not part of the sources;
engine results are therefore parametrised by the property assignment
`prop : Nat → WordBreakProperty` (code point to Word_Break property) and by
the Extended_Pictographic membership test `extPic : Nat → Bool`.
-/

namespace UDWB

/-- Word_Break property values (the concrete values that the generated
table can assign to a code point).  The generated enum also contains the
two pseudo-properties `sot` and `eot`; those are only ever produced by the
engine's sentinel logic, never by the table, so the embedding keeps them in
the separate type `WinProp` below. -/
inductive WordBreakProperty where
  | Other
  | LF
  | Newline
  | CR
  | WSegSpace
  | Double_Quote
  | Single_Quote
  | MidNum
  | MidNumLet
  | Numeric
  | MidLetter
  | ALetter
  | ExtendNumLet
  | Format
  | Extend
  | Hebrew_Letter
  | ZWJ
  | Katakana
  | Regional_Indicator
  deriving DecidableEq, Repr

/-- A value held in one of the four sliding-window slots: either a concrete
Word_Break property or one of the start-of-text/end-of-text sentinels. -/
inductive WinProp where
  | sot
  | eot
  | wb (p : WordBreakProperty)
  deriving DecidableEq, Repr

/-- Translation of `isStartOfSurrogatePair`: the code unit is a UTF-16 high
surrogate. -/
def isStartOfSurrogatePair (codeUnit : Nat) : Bool :=
  decide (0xD800 ≤ codeUnit ∧ codeUnit ≤ 0xDBFF)

/-- A UTF-16 low (trailing) surrogate code unit. -/
def isLowSurrogate (codeUnit : Nat) : Bool :=
  decide (0xDC00 ≤ codeUnit ∧ codeUnit ≤ 0xDFFF)

/-- The code unit of `text` at index `pos` (0 when out of range; every use
below guards the index, mirroring the JavaScript indexing). -/
def unitAt (text : List Nat) (pos : Nat) : Nat :=
  text.getD pos 0

/-- Translation of `positionAfter` from `src/findBoundaries.ts`: position of
the start of the next scalar value, jumping over surrogate pairs; clamps to
`text.length` past the end. -/
def positionAfter (text : List Nat) (pos : Nat) : Nat :=
  if text.length ≤ pos then text.length
  else if isStartOfSurrogatePair (unitAt text pos) then pos + 2
  else pos + 1

/-- The code point read at index `pos`, as computed by
`wordbreakPropertyAt`/`property` in the source: a high surrogate followed by
a low surrogate combines into the supplementary code point
(`String.prototype.codePointAt` semantics); otherwise the lone code unit is
returned. -/
def codePointAt (text : List Nat) (pos : Nat) : Nat :=
  let u := unitAt text pos
  if isStartOfSurrogatePair u then
    match text.get? (pos + 1) with
    | some v =>
      if isLowSurrogate v then 0x10000 + (u - 0xD800) * 0x400 + (v - 0xDC00) else u
    | none => u
  else u

/-- Translation of `wordbreakPropertyAt`: `eot` at or past the end of the
string, otherwise the property of the scalar at `pos`.  The source also has
a `pos < 0 → sot` branch; positions in this engine are naturals that start
at 0 and only grow, so that branch is unreachable and is not modelled. -/
def wordbreakPropertyAt (prop : Nat → WordBreakProperty) (text : List Nat) (pos : Nat) :
    WinProp :=
  if text.length ≤ pos then WinProp.eot
  else WinProp.wb (prop (codePointAt text pos))

/-- Translation of `isExtendedPictographicAt`: whether the regular
expression `extendedPictographic` (modelled by the membership function
`extPic`) matches at the start of `text.substring(pos, pos + 2)`.  The
regex is anchored (`^`), so it tests the first code point of that
substring, which is exactly `codePointAt text pos`; an empty substring
(`pos` past the end) never matches. -/
def isExtendedPictographicAt (extPic : Nat → Bool) (text : List Nat) (pos : Nat) : Bool :=
  if pos < text.length then extPic (codePointAt text pos) else false

/-- Translation of the rule macro `isAHLetter`. -/
def isAHLetter (p : WinProp) : Bool :=
  p == WinProp.wb .ALetter || p == WinProp.wb .Hebrew_Letter

/-- Translation of the rule macro `isMidNumLetQ`. -/
def isMidNumLetQ (p : WinProp) : Bool :=
  p == WinProp.wb .MidNumLet || p == WinProp.wb .Single_Quote

/-- The mutable locals of one `findBoundaries` walk, as a record: the two
positions, the four window slots, and the Regional_Indicator counter. -/
structure WalkState where
  rightPos : Nat
  lookaheadPos : Nat
  lookbehind : WinProp
  left : WinProp
  right : WinProp
  lookahead : WinProp
  nRI : Nat
  deriving DecidableEq, Repr

/-- Translation of the first WB4 sweep (`while right ∈ {Format, Extend,
ZWJ}` loop) of `findBoundaries`: advance `rightPos`/`lookaheadPos` and shift
`right`/`lookahead` until `right` is none of Format, Extend, ZWJ.  The
source loop terminates because positions ratchet up to the end of the
string, where `wordbreakPropertyAt` returns `eot`; the embedding makes this
explicit with a fuel argument, and the termination theorems show the fuel
used by `findBoundaries` is never exhausted. -/
def wb4SkipRight (prop : Nat → WordBreakProperty) (text : List Nat) :
    Nat → Nat → Nat → WinProp → WinProp → Nat × Nat × WinProp × WinProp
  | 0, rightPos, lookaheadPos, right, lookahead => (rightPos, lookaheadPos, right, lookahead)
  | fuel + 1, rightPos, lookaheadPos, right, lookahead =>
    if right = WinProp.wb .Format ∨ right = WinProp.wb .Extend ∨ right = WinProp.wb .ZWJ then
      wb4SkipRight prop text fuel lookaheadPos (positionAfter text lookaheadPos) lookahead
        (wordbreakPropertyAt prop text (positionAfter text lookaheadPos))
    else (rightPos, lookaheadPos, right, lookahead)

/-- Translation of the second WB4 sweep (`while lookahead ∈ {Format,
Extend, ZWJ}` loop) of `findBoundaries`. -/
def wb4SkipLookahead (prop : Nat → WordBreakProperty) (text : List Nat) :
    Nat → Nat → WinProp → Nat × WinProp
  | 0, lookaheadPos, lookahead => (lookaheadPos, lookahead)
  | fuel + 1, lookaheadPos, lookahead =>
    if lookahead = WinProp.wb .Format ∨ lookahead = WinProp.wb .Extend ∨
        lookahead = WinProp.wb .ZWJ then
      wb4SkipLookahead prop text fuel (positionAfter text lookaheadPos)
        (wordbreakPropertyAt prop text (positionAfter text lookaheadPos))
    else (lookaheadPos, lookahead)

/-- The tail of the rule cascade of one `findBoundaries` iteration, rules
WB5 through WB999 in source order, evaluated after the WB4 sweeps.  All
`continue` branches store the same state; WB15/WB16 and WB999 update the
Regional_Indicator counter as in the source. -/
def lateRules (lookbehind left right lookahead : WinProp) (rightPos lookaheadPos nRI : Nat) :
    List Nat × Option WalkState :=
  -- WB5: Do not break between most letters.
  if isAHLetter left && isAHLetter right then
    ([], some ⟨rightPos, lookaheadPos, lookbehind, left, right, lookahead, nRI⟩)
  -- WB6
  else if isAHLetter left && isAHLetter lookahead &&
      (right == WinProp.wb .MidLetter || isMidNumLetQ right) then
    ([], some ⟨rightPos, lookaheadPos, lookbehind, left, right, lookahead, nRI⟩)
  -- WB7
  else if isAHLetter lookbehind && isAHLetter right &&
      (left == WinProp.wb .MidLetter || isMidNumLetQ left) then
    ([], some ⟨rightPos, lookaheadPos, lookbehind, left, right, lookahead, nRI⟩)
  -- WB7a
  else if left = WinProp.wb .Hebrew_Letter ∧ right = WinProp.wb .Single_Quote then
    ([], some ⟨rightPos, lookaheadPos, lookbehind, left, right, lookahead, nRI⟩)
  -- WB7b
  else if left = WinProp.wb .Hebrew_Letter ∧ right = WinProp.wb .Double_Quote ∧
      lookahead = WinProp.wb .Hebrew_Letter then
    ([], some ⟨rightPos, lookaheadPos, lookbehind, left, right, lookahead, nRI⟩)
  -- WB7c
  else if lookbehind = WinProp.wb .Hebrew_Letter ∧ left = WinProp.wb .Double_Quote ∧
      right = WinProp.wb .Hebrew_Letter then
    ([], some ⟨rightPos, lookaheadPos, lookbehind, left, right, lookahead, nRI⟩)
  -- WB8
  else if left = WinProp.wb .Numeric ∧ right = WinProp.wb .Numeric then
    ([], some ⟨rightPos, lookaheadPos, lookbehind, left, right, lookahead, nRI⟩)
  -- WB9
  else if isAHLetter left && right == WinProp.wb .Numeric then
    ([], some ⟨rightPos, lookaheadPos, lookbehind, left, right, lookahead, nRI⟩)
  -- WB10
  else if left == WinProp.wb .Numeric && isAHLetter right then
    ([], some ⟨rightPos, lookaheadPos, lookbehind, left, right, lookahead, nRI⟩)
  -- WB11
  else if lookbehind = WinProp.wb .Numeric ∧ right = WinProp.wb .Numeric ∧
      (left = WinProp.wb .MidNum ∨ isMidNumLetQ left = true) then
    ([], some ⟨rightPos, lookaheadPos, lookbehind, left, right, lookahead, nRI⟩)
  -- WB12
  else if left = WinProp.wb .Numeric ∧ lookahead = WinProp.wb .Numeric ∧
      (right = WinProp.wb .MidNum ∨ isMidNumLetQ right = true) then
    ([], some ⟨rightPos, lookaheadPos, lookbehind, left, right, lookahead, nRI⟩)
  -- WB13
  else if left = WinProp.wb .Katakana ∧ right = WinProp.wb .Katakana then
    ([], some ⟨rightPos, lookaheadPos, lookbehind, left, right, lookahead, nRI⟩)
  -- WB13a
  else if (isAHLetter left || left == WinProp.wb .Numeric ||
      left == WinProp.wb .Katakana || left == WinProp.wb .ExtendNumLet) &&
      right == WinProp.wb .ExtendNumLet then
    ([], some ⟨rightPos, lookaheadPos, lookbehind, left, right, lookahead, nRI⟩)
  -- WB13b
  else if (isAHLetter right || right == WinProp.wb .Numeric ||
      right == WinProp.wb .Katakana) && left == WinProp.wb .ExtendNumLet then
    ([], some ⟨rightPos, lookaheadPos, lookbehind, left, right, lookahead, nRI⟩)
  -- WB15 and WB16: Regional_Indicator parity.
  else if right = WinProp.wb .Regional_Indicator then
    if (nRI + 1) % 2 = 1 then
      ([], some ⟨rightPos, lookaheadPos, lookbehind, left, right, lookahead, nRI + 1⟩)
    else
      ([rightPos], some ⟨rightPos, lookaheadPos, lookbehind, left, right, lookahead, nRI + 1⟩)
  -- WB999: Otherwise, break everywhere.
  else
    ([rightPos], some ⟨rightPos, lookaheadPos, lookbehind, left, right, lookahead, 0⟩)

/-- The part of one `findBoundaries` iteration from rule WB3c on (after the
HACK window advance): WB3c, WB3d, the two WB4 sweeps with the mid-sweep
end-of-text break, then `lateRules`. -/
def ruleTail (prop : Nat → WordBreakProperty) (extPic : Nat → Bool) (text : List Nat)
    (ifuel : Nat) (lookbehind : WinProp) (nRI : Nat) (rightPos lookaheadPos : Nat)
    (left right lookahead : WinProp) : List Nat × Option WalkState :=
  -- WB3c: Do not break within emoji ZWJ sequences.
  if left = WinProp.wb .ZWJ ∧ isExtendedPictographicAt extPic text rightPos = true then
    ([], some ⟨rightPos, lookaheadPos, lookbehind, left, right, lookahead, nRI⟩)
  -- WB3d: Keep horizontal whitespace together.
  else if left = WinProp.wb .WSegSpace ∧ right = WinProp.wb .WSegSpace then
    ([], some ⟨rightPos, lookaheadPos, lookbehind, left, right, lookahead, nRI⟩)
  else
    -- WB4: ignore Format, Extend, ZWJ when deciding `right`.
    match wb4SkipRight prop text ifuel rightPos lookaheadPos right lookahead with
    | (rightPos, lookaheadPos, right, lookahead) =>
      -- The sweep may have fallen off the end of the string.
      if right = WinProp.eot then ([rightPos], none)
      else
        -- WB4 (continued): the lookahead also ignores Format, Extend, ZWJ.
        match wb4SkipLookahead prop text ifuel lookaheadPos lookahead with
        | (lookaheadPos, lookahead) =>
          lateRules lookbehind left right lookahead rightPos lookaheadPos nRI

/-- Translation of one iteration of the `do … while` loop of
`findBoundaries`, rules WB1 through WB999 in source order (the cascade
from WB3c on lives in `ruleTail` and `lateRules`).  Returns the positions
yielded during the iteration and `some` next state (`continue`, or falling
through to the loop condition) or `none` (`break` at WB2). -/
def stepBody (prop : Nat → WordBreakProperty) (extPic : Nat → Bool) (text : List Nat)
    (ifuel : Nat) (st : WalkState) : List Nat × Option WalkState :=
  -- Shift all positions and properties, one scalar value to the right.
  let rightPos := st.lookaheadPos
  let lookaheadPos := positionAfter text st.lookaheadPos
  let lookbehind := st.left
  let left := st.right
  let right := st.lookahead
  let lookahead := wordbreakPropertyAt prop text lookaheadPos
  -- WB1: Break at start of text.
  if left = WinProp.sot then
    ([rightPos], some ⟨rightPos, lookaheadPos, lookbehind, left, right, lookahead, st.nRI⟩)
  -- WB2: Break at the end of text.
  else if right = WinProp.eot then ([rightPos], none)
  -- WB3: Do not break within CRLF.
  else if left = WinProp.wb .CR ∧ right = WinProp.wb .LF then
    ([], some ⟨rightPos, lookaheadPos, lookbehind, left, right, lookahead, st.nRI⟩)
  -- WB3b: Otherwise, break after newlines.
  else if left = WinProp.wb .Newline ∨ left = WinProp.wb .CR ∨ left = WinProp.wb .LF then
    ([rightPos], some ⟨rightPos, lookaheadPos, lookbehind, left, right, lookahead, st.nRI⟩)
  -- WB3a: and before newlines.
  else if right = WinProp.wb .Newline ∨ right = WinProp.wb .CR ∨ right = WinProp.wb .LF then
    ([rightPos], some ⟨rightPos, lookaheadPos, lookbehind, left, right, lookahead, st.nRI⟩)
  else
    -- HACK: advance by TWO positions when (Other)(Extend|Format)(ZWJ) is seen,
    -- so that WB3c can fire before the WB4 sweep erases the ZWJ.
    match
      (if left = WinProp.wb .Other ∧
          (right = WinProp.wb .Extend ∨ right = WinProp.wb .Format) ∧
          lookahead = WinProp.wb .ZWJ then
        let lapA := positionAfter text lookaheadPos
        let rpB := lapA
        let lapB := positionAfter text lapA
        (rpB, lapB, lookahead, wordbreakPropertyAt prop text rpB,
          wordbreakPropertyAt prop text lapB)
      else (rightPos, lookaheadPos, left, right, lookahead) :
        Nat × Nat × WinProp × WinProp × WinProp) with
    | (rightPos, lookaheadPos, left, right, lookahead) =>
      ruleTail prop extPic text ifuel lookbehind st.nRI rightPos lookaheadPos
        left right lookahead

/-- The `do … while (rightPos < text.length)` loop of `findBoundaries`,
with an explicit iteration-count fuel (`ifuel` is the fuel handed to the
two inner WB4 sweeps of every iteration). -/
def walkAux (prop : Nat → WordBreakProperty) (extPic : Nat → Bool) (text : List Nat)
    (ifuel : Nat) : Nat → WalkState → List Nat
  | 0, _ => []
  | fuel + 1, st =>
    match stepBody prop extPic text ifuel st with
    | (ys, none) => ys
    | (ys, some st') =>
      ys ++ (if st'.rightPos < text.length then walkAux prop extPic text ifuel fuel st' else [])

/-- The initial walk state of `findBoundaries`: both positions at 0, the
window filled with `sot` except for `lookahead`, and RI counter 0. -/
def initState (prop : Nat → WordBreakProperty) (text : List Nat) : WalkState :=
  ⟨0, 0, WinProp.sot, WinProp.sot, WinProp.sot, wordbreakPropertyAt prop text 0, 0⟩

/-- Definition of `findBoundaries` with an explicit fuel bound on every loop. -/
def findBoundariesWithFuel (prop : Nat → WordBreakProperty) (extPic : Nat → Bool)
    (text : List Nat) (fuel : Nat) : List Nat :=
  -- WB1 and WB2: no boundaries if given an empty string.
  if text.length = 0 then []
  else walkAux prop extPic text fuel fuel (initState prop text)

/-- Translation of `findBoundaries` from `src/findBoundaries.ts`: the list
of string indices (UTF-16 code-unit positions) before which a word break
occurs.  The fuel `text.length + 2` strictly dominates the iteration counts
of all three loops (proved by the termination theorems below). -/
def findBoundaries (prop : Nat → WordBreakProperty) (extPic : Nat → Bool)
    (text : List Nat) : List Nat :=
  findBoundariesWithFuel prop extPic text (text.length + 2)

/-- Translation of `String.prototype.substring`: both arguments are clamped
to `[0, length]` and swapped if out of order, then the code units in
between are returned. -/
def jsSubstring (text : List Nat) (s e : Nat) : List Nat :=
  let a := min s text.length
  let b := min e text.length
  (text.take (max a b)).drop (min a b)

/-- Translation of the `LazySpan` class of `src/index.ts` (the `end` field
is called `endPos`, `end` being reserved in Lean). -/
structure LazySpan where
  source : List Nat
  start : Nat
  endPos : Nat
  deriving DecidableEq, Repr

/-- The `text` getter of `LazySpan`. -/
def LazySpan.text (sp : LazySpan) : List Nat :=
  jsSubstring sp.source sp.start sp.endPos

/-- The `length` getter of `LazySpan`. -/
def LazySpan.spanLength (sp : LazySpan) : Nat :=
  sp.endPos - sp.start

/-- Translation of `findSpans` from `src/index.ts`: one span per adjacent
pair of boundaries. -/
def findSpans (prop : Nat → WordBreakProperty) (extPic : Nat → Bool)
    (text : List Nat) : List LazySpan :=
  let boundaries := findBoundaries prop extPic text
  if boundaries.length = 0 then []
  else (boundaries.zip boundaries.tail).map (fun p => ⟨text, p.1, p.2⟩)

/-- Translation of `Array.from` on a string: the sequence of code points,
combining well-formed surrogate pairs and keeping lone surrogates. -/
def codePointsOf : List Nat → List Nat
  | [] => []
  | [u] => [u]
  | u :: v :: rest =>
    if isStartOfSurrogatePair u ∧ isLowSurrogate v then
      (0x10000 + (u - 0xD800) * 0x400 + (v - 0xDC00)) :: codePointsOf rest
    else u :: codePointsOf (v :: rest)

/-- Translation of `isNonSpace` from `src/index.ts`: true when the chunk
does not solely consist of whitespace (CR, LF, Newline, WSegSpace). -/
def isNonSpace (prop : Nat → WordBreakProperty) (chunk : List Nat) : Bool :=
  !(((codePointsOf chunk).map prop).all fun wbp =>
      wbp == WordBreakProperty.CR || wbp == WordBreakProperty.LF ||
      wbp == WordBreakProperty.Newline || wbp == WordBreakProperty.WSegSpace)

/-- Translation of the exported `split` of `src/index.ts`: the texts of all
spans, dropping chunks that are just whitespace. -/
def split (prop : Nat → WordBreakProperty) (extPic : Nat → Bool)
    (text : List Nat) : List (List Nat) :=
  ((findSpans prop extPic text).map LazySpan.text).filter (isNonSpace prop)

/-- Modelled from the spec: the generated property table
`gen/WordBreakProperty.ts` is not among the sources, so this is a small
concrete property assignment used to instantiate the parametric engine in
witnesses and counterexamples.  Its values follow the Unicode data the spec
describes (ASCII ranges per UAX #29, the emoji modifier U+1F3FD and the
variation selector U+FE0F as Extend, U+200D as ZWJ, the regional
indicators U+1F1E6..U+1F1FF); everything else, including surrogate code
points, falls through to `Other` as the spec requires for code points not
covered by an assigned range. -/
def sampleProp (c : Nat) : WordBreakProperty :=
  if c = 0xA then .LF
  else if c = 0xD then .CR
  else if c = 0xB ∨ c = 0xC ∨ c = 0x85 ∨ c = 0x2028 ∨ c = 0x2029 then .Newline
  else if c = 0x20 then .WSegSpace
  else if c = 0x22 then .Double_Quote
  else if c = 0x27 then .Single_Quote
  else if c = 0x2C then .MidNum
  else if c = 0x2E then .MidNumLet
  else if 0x30 ≤ c ∧ c ≤ 0x39 then .Numeric
  else if c = 0x3A then .MidLetter
  else if (0x41 ≤ c ∧ c ≤ 0x5A) ∨ (0x61 ≤ c ∧ c ≤ 0x7A) then .ALetter
  else if c = 0x5F then .ExtendNumLet
  else if c = 0xAD then .Format
  else if c = 0x200D then .ZWJ
  else if c = 0x1F3FD ∨ c = 0xFE0F then .Extend
  else if 0x1F1E6 ≤ c ∧ c ≤ 0x1F1FF then .Regional_Indicator
  else .Other

/-- Modelled from the spec: a small Extended_Pictographic membership test
(the generated regular expression is not among the sources); it recognises
the fairy U+1F9DA and the male sign U+2642 used by the spec's WB3c
fixture. -/
def sampleExtPic (c : Nat) : Bool :=
  decide (c = 0x1F9DA ∨ c = 0x2642)

/-- The input is well-formed UTF-16: every high surrogate is immediately
followed by a low surrogate, and every low surrogate is immediately
preceded by a high surrogate. -/
def WellFormedUTF16 (text : List Nat) : Prop :=
  ∀ i, i < text.length →
    (isStartOfSurrogatePair (unitAt text i) = true →
      i + 1 < text.length ∧ isLowSurrogate (unitAt text (i + 1)) = true) ∧
    (isLowSurrogate (unitAt text i) = true →
      0 < i ∧ isStartOfSurrogatePair (unitAt text (i - 1)) = true)

/-- Position `p` is a valid scalar-value boundary of `text`: it is in range and does
not point into the middle of a character (at a low surrogate that follows
a high surrogate, for well-formed text: at any low surrogate). -/
def isScalarBoundary (text : List Nat) (p : Nat) : Prop :=
  p ≤ text.length ∧ (p = text.length ∨ isLowSurrogate (unitAt text p) = false)

/-- Position `p` falls between the high and the low code unit of a surrogate pair
of `text`. -/
def midSurrogatePair (text : List Nat) (p : Nat) : Prop :=
  0 < p ∧ p < text.length ∧
    isStartOfSurrogatePair (unitAt text (p - 1)) = true ∧
    isLowSurrogate (unitAt text p) = true

/-! ### The binary-search property resolver of `src/index.ts` -/

/-- An entry of the `WORD_BREAK_PROPERTY` table in the record layout used
by `src/index.ts` (`{start, end, value}`; `end` is called `endCP`, `end`
being reserved in Lean). -/
structure WBRange where
  start : Nat
  endCP : Nat
  value : WordBreakProperty
  deriving DecidableEq, Repr

namespace Search

/-- Translation of `searchForProperty` from `src/index.ts`: recursive
binary search over the range table.  `none` models the JavaScript
`TypeError` thrown when `WORD_BREAK_PROPERTY[midpoint]` is `undefined` and
`.start` is read from it.  The JavaScript `~~((right - left) / 2)`
truncates toward zero; it is only evaluated when `left ≤ right`, where the
operand is nonnegative and Lean's integer division agrees. -/
def searchForProperty (table : List WBRange) (codepoint : Nat) (l r : Int) :
    Option WordBreakProperty :=
  -- All items that are not found in the array are assigned 'Other'.
  if r < l then some WordBreakProperty.Other
  else
    let midpoint : Int := l + (r - l) / 2
    match table.get? midpoint.toNat with
    | none => none
    | some candidate =>
      if codepoint < candidate.start then searchForProperty table codepoint l (midpoint - 1)
      else if candidate.endCP < codepoint then searchForProperty table codepoint (midpoint + 1) r
      else some candidate.value
  termination_by (r + 1 - l).toNat
  decreasing_by
  · have h1 : (r - l) / 2 ≤ r - l := Int.ediv_le_self _ (by omega)
    omega
  · have h0 : (0 : Int) ≤ (r - l) / 2 := Int.ediv_nonneg (by omega) (by omega)
    have h1 : (r - l) / 2 ≤ r - l := Int.ediv_le_self _ (by omega)
    omega

/-- Translation of `property` from `src/index.ts`: binary search over the
whole table, with `right` starting at `WORD_BREAK_PROPERTY.length`. -/
def property (table : List WBRange) (codepoint : Nat) : Option WordBreakProperty :=
  searchForProperty table codepoint 0 table.length

end Search

/-- The start of table entry `i` (0 when out of range). -/
def entryStart (table : List WBRange) (i : Nat) : Nat :=
  ((table.get? i).map WBRange.start).getD 0

/-- The end of table entry `i` (0 when out of range). -/
def entryEnd (table : List WBRange) (i : Nat) : Nat :=
  ((table.get? i).map WBRange.endCP).getD 0

/-- The value of table entry `i` (`Other` when out of range). -/
def entryValue (table : List WBRange) (i : Nat) : WordBreakProperty :=
  ((table.get? i).map WBRange.value).getD WordBreakProperty.Other

/-- The table is sorted and dense, as the generator guarantees: every
range is nonempty, consecutive ranges are adjacent, the first range starts
at 0 and the last ends at 0x10FFFF. -/
def DenseTable (table : List WBRange) : Prop :=
  0 < table.length ∧
  (∀ i, i < table.length → entryStart table i ≤ entryEnd table i) ∧
  (∀ i, i < table.length - 1 → entryStart table (i + 1) = entryEnd table i + 1) ∧
  entryStart table 0 = 0 ∧
  entryEnd table (table.length - 1) = 0x10FFFF

/-! ### The packed dense-lookup resolver of `src/findBoundaries.ts` -/

namespace Packed

/-- Constant `BITS_PER_WORD` from `src/findBoundaries.ts`. -/
def BITS_PER_WORD : Nat := 4

/-- Constant `ENTRIES_PER_WORD` from `src/findBoundaries.ts`. -/
def ENTRIES_PER_WORD : Nat := 8

/-- Constant `NUMBER_OF_CODE_POINTS` from `src/findBoundaries.ts`. -/
def NUMBER_OF_CODE_POINTS : Nat := 0x110000

/-- The length of the `Uint32Array` allocated by `createLookupTable`
(`Math.ceil(NUMBER_OF_CODE_POINTS / ENTRIES_PER_WORD)`). -/
def lutSize : Nat := (NUMBER_OF_CODE_POINTS + ENTRIES_PER_WORD - 1) / ENTRIES_PER_WORD

/-- Model of a zero-initialised `Uint32Array` of length `lutSize` as a
function from index to stored word; a store to an out-of-range index is
silently dropped, as for JavaScript typed arrays.  The stored words are
below `2 ^ 32` by construction (eight 4-bit fields), so no truncation is
modelled. -/
def uset (a : Nat → Nat) (i v : Nat) : Nat → Nat :=
  fun j => if j = i ∧ i < lutSize then v else a j

/-- The mutable locals of `createLookupTable`. -/
structure LutState where
  lut : Nat → Nat
  wordIndex : Nat
  entryIndex : Nat
  currentWord : Nat

/-- One execution of the body of the inner `for codePoint` loop of
`createLookupTable`: or the 4-bit field `min(wbProperty, 0xF)` into the
current word and flush the word every `ENTRIES_PER_WORD` entries. -/
def pushEntry (st : LutState) (wbProperty : Nat) : LutState :=
  let w := st.currentWord ||| (min wbProperty 0xF <<< (BITS_PER_WORD * st.entryIndex))
  let e := st.entryIndex + 1
  if e = ENTRIES_PER_WORD then
    ⟨uset st.lut st.wordIndex w, st.wordIndex + 1, 0, 0⟩
  else
    ⟨st.lut, st.wordIndex, e, w⟩

/-- The inner `for codePoint` loop: `count` pushes of the same property
(the loop runs from `start` to `end`, i.e. `end - start` times). -/
def pushRange (st : LutState) (v : Nat) : Nat → LutState
  | 0 => st
  | k + 1 => pushRange (pushEntry st v) v k

/-- The outer loop of `createLookupTable` over all ranges but the last;
the end of each range is the start of the next entry. -/
def buildRanges (st : LutState) : List (Nat × Nat) → LutState
  | [] => st
  | [_] => st
  | (s, v) :: (s2, v2) :: rest => buildRanges (pushRange st v (s2 - s)) ((s2, v2) :: rest)

/-- Translation of `createLookupTable` from `src/findBoundaries.ts`,
parametrised by the `WORD_BREAK_PROPERTY` table in its `[start, value]`
pair layout: run the double loop, then flush the partial last word. -/
def createLookupTable (table : List (Nat × Nat)) : Nat → Nat :=
  let st := buildRanges ⟨fun _ => 0, 0, 0, 0⟩ table
  if st.entryIndex ≠ 0 then uset st.lut st.wordIndex st.currentWord else st.lut

/-- Translation of `lookupProperty` from `src/findBoundaries.ts`: extract
the 4-bit field of `codepoint` from the packed word.  The JavaScript `>>`
is a signed 32-bit shift, but the conjunction with `0xF` only keeps bits
strictly below bit 31, where the signed and unsigned shifts agree, so the
natural-number shift is faithful. -/
def lookupProperty (lut : Nat → Nat) (codepoint : Nat) : Nat :=
  let wordIndex := codepoint >>> 3
  let i := codepoint &&& 0b111
  let word := lut wordIndex
  (word >>> (i * BITS_PER_WORD)) &&& 0xF

/-- Translation of `property` from `src/findBoundaries.ts` at the scalar
level: five characters are matched directly against string literals before
the packed lookup (their string comparison is equivalent to comparing the
code point, since each literal is a single BMP code unit); the enum
constants `WordBreakProperty.LF` … `WordBreakProperty.ZWJ` returned there
are numeric values of the generated enum, passed in as parameters because
the generated file is not among the sources. -/
def property (table : List (Nat × Nat)) (vLF vCR vDQ vSQ vZWJ : Nat) (c : Nat) : Nat :=
  if c = 0xA then vLF
  else if c = 0xD then vCR
  else if c = 0x22 then vDQ
  else if c = 0x27 then vSQ
  else if c = 0x200D then vZWJ
  else lookupProperty (createLookupTable table) c

/-- The reference resolver, in the words of the specification: a code
point `c` resolves to the value of the sorted range-table entry with the
greatest `start ≤ c`. -/
def rangeValue (table : List (Nat × Nat)) (c : Nat) : Nat :=
  table.foldl (fun acc e => if e.1 ≤ c then e.2 else acc) 0

/-- The value of a packed word whose 4-bit fields are the elements of the
list, least-significant first. -/
def nibbles (l : List Nat) : Nat :=
  l.foldr (fun v acc => v + 16 * acc) 0

/-- The fold of `pushEntry` over a list of property values (the double
loop of `createLookupTable`, flattened). -/
def pushList (st : LutState) (vs : List Nat) : LutState :=
  vs.foldl pushEntry st

/-- The per-code-point property values written by the double loop of
`createLookupTable`: each range but the last contributes one copy of its
value per covered code point. -/
def expand : List (Nat × Nat) → List Nat
  | [] => []
  | [_] => []
  | (s, v) :: (s2, v2) :: rest => List.replicate (s2 - s) v ++ expand ((s2, v2) :: rest)

end Packed

/-! ### Inputs and engines for the Regional_Indicator claim -/

/-- A run of `n` regional-indicator scalars U+1F1E6 (each is the surrogate
pair D83C DDE6 in UTF-16). -/
def riText : Nat → List Nat
  | 0 => []
  | n + 1 => 0xD83C :: 0xDDE6 :: riText n

/-- Modelled from the spec: the engine that the claim literally describes.
It is `stepBody` with the Regional_Indicator counter discipline applied on
every step, directly after the window shift: if `right` is
Regional_Indicator the counter is incremented and the step's boundary is
inhibited when the resulting value is odd; otherwise the counter is reset
to zero.  The remaining rules are unchanged (with the in-cascade WB15/WB16
block removed, since the claim places the counter update outside the
cascade). -/
def stepBodyClaimRI (prop : Nat → WordBreakProperty) (extPic : Nat → Bool) (text : List Nat)
    (ifuel : Nat) (st : WalkState) : List Nat × Option WalkState :=
  let rightPos := st.lookaheadPos
  let lookaheadPos := positionAfter text st.lookaheadPos
  let lookbehind := st.left
  let left := st.right
  let right := st.lookahead
  let lookahead := wordbreakPropertyAt prop text lookaheadPos
  let n := if right = WinProp.wb .Regional_Indicator then st.nRI + 1 else 0
  if right = WinProp.wb .Regional_Indicator ∧ n % 2 = 1 then
    ([], some ⟨rightPos, lookaheadPos, lookbehind, left, right, lookahead, n⟩)
  else if left = WinProp.sot then
    ([rightPos], some ⟨rightPos, lookaheadPos, lookbehind, left, right, lookahead, n⟩)
  else if right = WinProp.eot then ([rightPos], none)
  else if left = WinProp.wb .CR ∧ right = WinProp.wb .LF then
    ([], some ⟨rightPos, lookaheadPos, lookbehind, left, right, lookahead, n⟩)
  else if left = WinProp.wb .Newline ∨ left = WinProp.wb .CR ∨ left = WinProp.wb .LF then
    ([rightPos], some ⟨rightPos, lookaheadPos, lookbehind, left, right, lookahead, n⟩)
  else if right = WinProp.wb .Newline ∨ right = WinProp.wb .CR ∨ right = WinProp.wb .LF then
    ([rightPos], some ⟨rightPos, lookaheadPos, lookbehind, left, right, lookahead, n⟩)
  else
    match
      (if left = WinProp.wb .Other ∧
          (right = WinProp.wb .Extend ∨ right = WinProp.wb .Format) ∧
          lookahead = WinProp.wb .ZWJ then
        let lapA := positionAfter text lookaheadPos
        let rpB := lapA
        let lapB := positionAfter text lapA
        (rpB, lapB, lookahead, wordbreakPropertyAt prop text rpB,
          wordbreakPropertyAt prop text lapB)
      else (rightPos, lookaheadPos, left, right, lookahead) :
        Nat × Nat × WinProp × WinProp × WinProp) with
    | (rightPos, lookaheadPos, left, right, lookahead) =>
      if left = WinProp.wb .ZWJ ∧ isExtendedPictographicAt extPic text rightPos = true then
        ([], some ⟨rightPos, lookaheadPos, lookbehind, left, right, lookahead, n⟩)
      else if left = WinProp.wb .WSegSpace ∧ right = WinProp.wb .WSegSpace then
        ([], some ⟨rightPos, lookaheadPos, lookbehind, left, right, lookahead, n⟩)
      else
        match wb4SkipRight prop text ifuel rightPos lookaheadPos right lookahead with
        | (rightPos, lookaheadPos, right, lookahead) =>
          if right = WinProp.eot then ([rightPos], none)
          else
            match wb4SkipLookahead prop text ifuel lookaheadPos lookahead with
            | (lookaheadPos, lookahead) =>
              if isAHLetter left && isAHLetter right then
                ([], some ⟨rightPos, lookaheadPos, lookbehind, left, right, lookahead, n⟩)
              else if isAHLetter left && isAHLetter lookahead &&
                  (right == WinProp.wb .MidLetter || isMidNumLetQ right) then
                ([], some ⟨rightPos, lookaheadPos, lookbehind, left, right, lookahead, n⟩)
              else if isAHLetter lookbehind && isAHLetter right &&
                  (left == WinProp.wb .MidLetter || isMidNumLetQ left) then
                ([], some ⟨rightPos, lookaheadPos, lookbehind, left, right, lookahead, n⟩)
              else if left = WinProp.wb .Hebrew_Letter ∧ right = WinProp.wb .Single_Quote then
                ([], some ⟨rightPos, lookaheadPos, lookbehind, left, right, lookahead, n⟩)
              else if left = WinProp.wb .Hebrew_Letter ∧ right = WinProp.wb .Double_Quote ∧
                  lookahead = WinProp.wb .Hebrew_Letter then
                ([], some ⟨rightPos, lookaheadPos, lookbehind, left, right, lookahead, n⟩)
              else if lookbehind = WinProp.wb .Hebrew_Letter ∧ left = WinProp.wb .Double_Quote ∧
                  right = WinProp.wb .Hebrew_Letter then
                ([], some ⟨rightPos, lookaheadPos, lookbehind, left, right, lookahead, n⟩)
              else if left = WinProp.wb .Numeric ∧ right = WinProp.wb .Numeric then
                ([], some ⟨rightPos, lookaheadPos, lookbehind, left, right, lookahead, n⟩)
              else if isAHLetter left && right == WinProp.wb .Numeric then
                ([], some ⟨rightPos, lookaheadPos, lookbehind, left, right, lookahead, n⟩)
              else if left == WinProp.wb .Numeric && isAHLetter right then
                ([], some ⟨rightPos, lookaheadPos, lookbehind, left, right, lookahead, n⟩)
              else if lookbehind = WinProp.wb .Numeric ∧ right = WinProp.wb .Numeric ∧
                  (left = WinProp.wb .MidNum ∨ isMidNumLetQ left = true) then
                ([], some ⟨rightPos, lookaheadPos, lookbehind, left, right, lookahead, n⟩)
              else if left = WinProp.wb .Numeric ∧ lookahead = WinProp.wb .Numeric ∧
                  (right = WinProp.wb .MidNum ∨ isMidNumLetQ right = true) then
                ([], some ⟨rightPos, lookaheadPos, lookbehind, left, right, lookahead, n⟩)
              else if left = WinProp.wb .Katakana ∧ right = WinProp.wb .Katakana then
                ([], some ⟨rightPos, lookaheadPos, lookbehind, left, right, lookahead, n⟩)
              else if (isAHLetter left || left == WinProp.wb .Numeric ||
                  left == WinProp.wb .Katakana || left == WinProp.wb .ExtendNumLet) &&
                  right == WinProp.wb .ExtendNumLet then
                ([], some ⟨rightPos, lookaheadPos, lookbehind, left, right, lookahead, n⟩)
              else if (isAHLetter right || right == WinProp.wb .Numeric ||
                  right == WinProp.wb .Katakana) && left == WinProp.wb .ExtendNumLet then
                ([], some ⟨rightPos, lookaheadPos, lookbehind, left, right, lookahead, n⟩)
              else
                ([rightPos],
                  some ⟨rightPos, lookaheadPos, lookbehind, left, right, lookahead, n⟩)

/-- Modelled from the spec: the walk loop over `stepBodyClaimRI`. -/
def walkAuxClaimRI (prop : Nat → WordBreakProperty) (extPic : Nat → Bool) (text : List Nat)
    (ifuel : Nat) : Nat → WalkState → List Nat
  | 0, _ => []
  | fuel + 1, st =>
    match stepBodyClaimRI prop extPic text ifuel st with
    | (ys, none) => ys
    | (ys, some st') =>
      ys ++ (if st'.rightPos < text.length then walkAuxClaimRI prop extPic text ifuel fuel st'
             else [])

/-- Modelled from the spec: `findBoundaries` as the claim literally
describes the Regional_Indicator handling. -/
def findBoundariesClaimRI (prop : Nat → WordBreakProperty) (extPic : Nat → Bool)
    (text : List Nat) : List Nat :=
  if text.length = 0 then []
  else
    walkAuxClaimRI prop extPic text (text.length + 2) (text.length + 2) (initState prop text)

/-- The predicate of the split_words claim: the chunk contains at least
one scalar whose Word_Break property is ALetter, Hebrew_Letter, Numeric or
Katakana (stated from the claim's words, for comparison with the code's
`isNonSpace` filter). -/
def containsWordLike (prop : Nat → WordBreakProperty) (chunk : List Nat) : Bool :=
  (codePointsOf chunk).any fun c =>
    prop c == WordBreakProperty.ALetter || prop c == WordBreakProperty.Hebrew_Letter ||
    prop c == WordBreakProperty.Numeric || prop c == WordBreakProperty.Katakana

/-- The stored walk state of `findBoundaries` between two iterations over a
run of regional indicators, directly after the window over code-unit
position `2*k` was processed (`1 ≤ k`): both text-reading window slots hold
Regional_Indicator and the counter equals `k`. -/
def riState (n k : Nat) (lb : WinProp) : WalkState :=
  ⟨2*k, 2*k+2, lb, WinProp.wb .Regional_Indicator, WinProp.wb .Regional_Indicator,
    wordbreakPropertyAt sampleProp (riText n) (2*k+2), k⟩

/-- The boundary positions the engine yields from the state `riState n k`
onward: one boundary after every completed pair of regional indicators (the
counter is even), then the final boundary `2*n` at the end of the text. -/
def riTail (n k : Nat) : List Nat :=
  if h : k + 1 < n then
    (if (k + 1) % 2 = 1 then [] else [2*k+2]) ++ riTail n (k + 1)
  else [2*n]
termination_by n - k
decreasing_by omega

/-- The relation between the two cursor positions that every iteration of
the walk re-establishes: the lookahead is strictly ahead, except past the
end of the string where it is clamped to the length. -/
def PosRel (text : List Nat) (rightPos lookaheadPos : Nat) : Prop :=
  rightPos < lookaheadPos ∨ (lookaheadPos = text.length ∧ text.length ≤ rightPos)

/-- The invariant of the stored walk state between iterations: the
`lookahead` slot matches the property at `lookaheadPos`, the `right` slot
is never the start sentinel (it is a property read from the text), and the
lookahead position is in range. -/
def StateInv (prop : Nat → WordBreakProperty) (text : List Nat) (st : WalkState) : Prop :=
  st.lookahead = wordbreakPropertyAt prop text st.lookaheadPos ∧
  st.right ≠ WinProp.sot ∧
  st.lookaheadPos ≤ text.length + 1

/-! ## Lemmas about the dense range table and the binary search -/

section TableLemmas

variable {table : List WBRange}

theorem entryWf (hD : DenseTable table) {i : Nat} (h : i < table.length) :
    entryStart table i ≤ entryEnd table i :=
  hD.2.1 i h

theorem entryStart_succ (hD : DenseTable table) {i : Nat} (h : i + 1 < table.length) :
    entryStart table (i + 1) = entryEnd table i + 1 :=
  hD.2.2.1 i (by omega)

theorem entryEnd_mono (hD : DenseTable table) {i j : Nat} (hij : i ≤ j)
    (hj : j < table.length) : entryEnd table i ≤ entryEnd table j := by
  induction hij with
  | refl => exact le_rfl
  | @step m h ih =>
    show entryEnd table i ≤ entryEnd table (m + 1)
    have hj' : m + 1 < table.length := hj
    have h1 := ih (by omega)
    have h2 := entryStart_succ hD (i := m) (by omega)
    have h3 := entryWf hD (i := m + 1) hj'
    omega

theorem entryStart_mono (hD : DenseTable table) {i j : Nat} (hij : i ≤ j)
    (hj : j < table.length) : entryStart table i ≤ entryStart table j := by
  induction hij with
  | refl => exact le_rfl
  | @step m h ih =>
    show entryStart table i ≤ entryStart table (m + 1)
    have hj' : m + 1 < table.length := hj
    have h1 := ih (by omega)
    have h2 := entryStart_succ hD (i := m) (by omega)
    have h3 := entryWf hD (i := m) (by omega)
    omega

/-- With the invariants of the binary search, an empty interval is
impossible: the dense table has no gap for the code point to fall into. -/
theorem dense_no_gap (hD : DenseTable table) {cp : Nat} (hcp : cp ≤ 0x10FFFF)
    {l r : Int} (hl : 0 ≤ l) (hrl : r < l)
    (inv1 : ∀ i : Nat, (i : Int) < l → i < table.length → entryEnd table i < cp)
    (inv2 : ∀ i : Nat, r < (i : Int) → i < table.length → cp < entryStart table i) :
    False := by
  have hN : 0 < table.length := hD.1
  by_cases hlN : (table.length : Int) ≤ l
  · have h1 := inv1 (table.length - 1) (by omega) (by omega)
    have h2 := hD.2.2.2.2
    omega
  · rcases Int.lt_or_le r 0 with hr0 | hr0
    · rcases Nat.eq_zero_or_pos l.toNat with hl0 | hl0
      · have h1 := inv2 0 (by omega) hN
        have h2 := hD.2.2.2.1
        omega
      · have h1 := inv1 (l.toNat - 1) (by omega) (by omega)
        have h2 := inv2 l.toNat (by omega) (by omega)
        have h3 := entryStart_succ hD (i := l.toNat - 1) (by omega)
        have h4 : l.toNat - 1 + 1 = l.toNat := by omega
        rw [h4] at h3
        omega
    · have hl1 : 1 ≤ l := by omega
      have h1 := inv1 (l.toNat - 1) (by omega) (by omega)
      have h2 := inv2 l.toNat (by omega) (by omega)
      have h3 := entryStart_succ hD (i := l.toNat - 1) (by omega)
      have h4 : l.toNat - 1 + 1 = l.toNat := by omega
      rw [h4] at h3
      omega

/-- Correctness of `searchForProperty` on a dense table: under the loop
invariants the search finds the unique entry containing the code point and
returns its value (in particular it never indexes out of range). -/
theorem searchForProperty_spec (hD : DenseTable table) {cp : Nat} (hcp : cp ≤ 0x10FFFF) :
    ∀ k : Nat, ∀ l r : Int, (r + 1 - l).toNat ≤ k → 0 ≤ l → r ≤ (table.length : Int) →
    (∀ i : Nat, (i : Int) < l → i < table.length → entryEnd table i < cp) →
    (∀ i : Nat, r < (i : Int) → i < table.length → cp < entryStart table i) →
    ∃ i : Nat, i < table.length ∧ entryStart table i ≤ cp ∧ cp ≤ entryEnd table i ∧
      Search.searchForProperty table cp l r = some (entryValue table i) := by
  intro k
  induction k with
  | zero =>
    intro l r hk hl hr inv1 inv2
    exact (dense_no_gap hD hcp hl (by omega) inv1 inv2).elim
  | succ k ih =>
    intro l r hk hl hr inv1 inv2
    by_cases hrl : r < l
    · exact (dense_no_gap hD hcp hl hrl inv1 inv2).elim
    · have hN : 0 < table.length := hD.1
      have hlr : l ≤ r := by omega
      have hdiv0 : (0 : Int) ≤ (r - l) / 2 := Int.ediv_nonneg (by omega) (by omega)
      have hdiv1 : (r - l) / 2 ≤ r - l := Int.ediv_le_self _ (by omega)
      set m : Int := l + (r - l) / 2 with hm
      have hmlr : l ≤ m ∧ m ≤ r := by omega
      have hlN : l < (table.length : Int) := by
        by_contra hcon
        have h1 := inv1 (table.length - 1) (by omega) (by omega)
        have h2 := hD.2.2.2.2
        omega
      have hmN : m < (table.length : Int) := by
        rcases Int.lt_or_le m (table.length : Int) with h | h
        · exact h
        · exfalso
          have hrN : r = (table.length : Int) := by omega
          have : (r - l) / 2 < r - l := by
            have := Int.ediv_lt_of_lt_mul (a := r - l) (b := 2) (c := r - l) (by omega)
              (by omega)
            omega
          omega
      have hmN' : m.toNat < table.length := by omega
      have hget : table.get? m.toNat = some (table.get ⟨m.toNat, hmN'⟩) :=
        List.get?_eq_get hmN'
      set c := table.get ⟨m.toNat, hmN'⟩ with hc
      have hget2 : table[m.toNat]? = some c := by
        rw [← List.get?_eq_getElem?]; exact hget
      have hes : entryStart table m.toNat = c.start := by simp [entryStart, hget2]
      have hee : entryEnd table m.toNat = c.endCP := by simp [entryEnd, hget2]
      have hev : entryValue table m.toNat = c.value := by simp [entryValue, hget2]
      rw [Search.searchForProperty]
      simp only [if_neg (by omega : ¬ r < l), hget]
      by_cases hlt : cp < c.start
      · simp only [if_pos hlt]
        refine ih l (m - 1) (by omega) hl (by omega) inv1 ?_
        intro i hi hiN
        have : m.toNat ≤ i := by omega
        calc cp < c.start := hlt
          _ = entryStart table m.toNat := hes.symm
          _ ≤ entryStart table i := entryStart_mono hD this hiN
      · simp only [if_neg hlt]
        by_cases hgt : c.endCP < cp
        · simp only [if_pos hgt]
          refine ih (m + 1) r (by omega) (by omega) hr ?_ inv2
          intro i hi hiN
          have : i ≤ m.toNat := by omega
          calc entryEnd table i ≤ entryEnd table m.toNat := entryEnd_mono hD this (by omega)
            _ = c.endCP := hee
            _ < cp := hgt
        · simp only [if_neg hgt]
          exact ⟨m.toNat, by omega, by omega, by omega, by rw [hev]⟩

end TableLemmas

/-- Claim C5: the property lookup (`property`/`searchForProperty` of
`src/index.ts`) is total and never throws for any code point in
0x0..0x10FFFF, and every code point at or beyond the start of the table's
final `Other` range — which covers everything beyond the largest assigned
range, in particular the unassigned part of 0xE0000..0xE01FF — resolves to
`Other`.  The hypotheses state what the generator guarantees about the
(not-shipped) table: density through 0x10FFFF with a final `Other` entry. -/
theorem c5_property_lookup_total (table : List WBRange) (hD : DenseTable table)
    (hlastV : entryValue table (table.length - 1) = WordBreakProperty.Other) :
    (∀ cp : Nat, cp ≤ 0x10FFFF → (Search.property table cp).isSome = true) ∧
    (∀ cp : Nat, entryStart table (table.length - 1) ≤ cp → cp ≤ 0x10FFFF →
      Search.property table cp = some WordBreakProperty.Other) := by
  have hN : 0 < table.length := hD.1
  have main : ∀ cp : Nat, cp ≤ 0x10FFFF →
      ∃ i : Nat, i < table.length ∧ entryStart table i ≤ cp ∧ cp ≤ entryEnd table i ∧
        Search.property table cp = some (entryValue table i) := by
    intro cp hcp
    exact searchForProperty_spec hD hcp (table.length + 1) 0 table.length
      (by omega) (by omega) (by omega)
      (fun i h1 _ => absurd h1 (by omega))
      (fun i h1 h2 => absurd h1 (by omega))
  constructor
  · intro cp hcp
    obtain ⟨i, _, _, _, heq⟩ := main cp hcp
    rw [heq]
    rfl
  · intro cp hlast hcp
    obtain ⟨i, hiN, h1, h2, heq⟩ := main cp hcp
    have hieq : i = table.length - 1 := by
      by_contra hne
      have hi1 : i + 1 ≤ table.length - 1 := by omega
      have hs := entryStart_succ hD (i := i) (by omega)
      have hm := entryStart_mono hD hi1 (by omega)
      omega
    rw [hieq] at heq
    rw [heq, hlastV]

/-- Witness for `c5_property_lookup_total` at a small concrete dense
table. -/
theorem c5_property_lookup_total_witness :
    (DenseTable
        [⟨0, 0x40, WordBreakProperty.Other⟩, ⟨0x41, 0x5A, WordBreakProperty.ALetter⟩,
         ⟨0x5B, 0x10FFFF, WordBreakProperty.Other⟩] ∧
      Search.property
        [⟨0, 0x40, WordBreakProperty.Other⟩, ⟨0x41, 0x5A, WordBreakProperty.ALetter⟩,
         ⟨0x5B, 0x10FFFF, WordBreakProperty.Other⟩] 0xE0100 =
        some WordBreakProperty.Other) ∧
    (Search.property
        [⟨0, 0x40, WordBreakProperty.Other⟩, ⟨0x41, 0x5A, WordBreakProperty.ALetter⟩,
         ⟨0x5B, 0x10FFFF, WordBreakProperty.Other⟩] 0x41).isSome = true := by
  refine ⟨⟨by unfold DenseTable; decide, ?_⟩, ?_⟩
  · exact (c5_property_lookup_total _ (by unfold DenseTable; decide) (by decide)).2 0xE0100
      (by decide) (by decide)
  · exact (c5_property_lookup_total _ (by unfold DenseTable; decide) (by decide)).1 0x41
      (by decide)

/-! ## Lemmas about the packed dense-lookup table -/

namespace Packed

theorem lor_shiftLeft_eq_add {a b k : Nat} (h : a < 2 ^ k) :
    a ||| (b <<< k) = a + b * 2 ^ k := by
  apply Nat.eq_of_testBit_eq
  intro i
  rw [Nat.testBit_lor, Nat.testBit_shiftLeft]
  by_cases hik : i < k
  · have hge : ¬ i ≥ k := by omega
    simp only [decide_eq_false hge, Bool.false_and, Bool.or_false]
    rw [Nat.testBit_to_div_mod, Nat.testBit_to_div_mod]
    have hk : k = k - i - 1 + 1 + i := by omega
    have e1 : a + b * 2 ^ k = a + b * 2 ^ (k - i - 1) * 2 * 2 ^ i := by
      conv_lhs => rw [hk]
      ring_nf
    rw [e1]
    have e2 : a + b * 2 ^ (k - i - 1) * 2 * 2 ^ i =
        a + (b * 2 ^ (k - i - 1) * 2) * 2 ^ i := by ring
    rw [e2, Nat.add_mul_div_right _ _ (Nat.pos_pow_of_pos i (by norm_num))]
    have e3 : a / 2 ^ i + b * 2 ^ (k - i - 1) * 2 = a / 2 ^ i + (b * 2 ^ (k - i - 1)) * 2 := by
      ring
    rw [e3, Nat.add_mul_mod_self_right]
  · have hge : i ≥ k := by omega
    simp only [decide_eq_true hge, Bool.true_and]
    have hA : a.testBit i = false :=
      Nat.testBit_lt_two_pow (lt_of_lt_of_le h (Nat.pow_le_pow_right (by norm_num) hge))
    rw [hA, Bool.false_or, Nat.testBit_to_div_mod, Nat.testBit_to_div_mod]
    have hi : (2 : Nat) ^ i = 2 ^ k * 2 ^ (i - k) := by
      rw [← pow_add]
      congr 1
      omega
    have e1 : (a + b * 2 ^ k) / 2 ^ i = b / 2 ^ (i - k) := by
      rw [hi, ← Nat.div_div_eq_div_mul]
      congr 1
      rw [Nat.add_mul_div_right _ _ (Nat.pos_pow_of_pos k (by norm_num)),
        Nat.div_eq_of_lt h, Nat.zero_add]
    rw [e1]

theorem nibbles_lt {l : List Nat} (h : ∀ x ∈ l, x < 16) :
    nibbles l < 16 ^ l.length := by
  induction l with
  | nil => simp [nibbles]
  | cons v tl ih =>
    have h1 := ih (fun x hx => h x (List.mem_cons_of_mem _ hx))
    have h2 : v < 16 := h v (List.mem_cons_self _ _)
    have : nibbles (v :: tl) = v + 16 * nibbles tl := rfl
    rw [this, List.length_cons, pow_succ]
    omega

theorem nibbles_append_singleton (l : List Nat) (v : Nat) :
    nibbles (l ++ [v]) = nibbles l + v * 16 ^ l.length := by
  induction l with
  | nil => simp [nibbles]
  | cons x tl ih =>
    have e1 : nibbles ((x :: tl) ++ [v]) = x + 16 * nibbles (tl ++ [v]) := rfl
    have e2 : nibbles (x :: tl) = x + 16 * nibbles tl := rfl
    rw [e1, ih, e2, List.length_cons, pow_succ]
    ring

theorem nibbles_getD {l : List Nat} (h : ∀ x ∈ l, x < 16) (j : Nat) :
    nibbles l / 16 ^ j % 16 = l.getD j 0 := by
  induction l generalizing j with
  | nil => simp [nibbles]
  | cons v tl ih =>
    have h1 : ∀ x ∈ tl, x < 16 := fun x hx => h x (List.mem_cons_of_mem _ hx)
    have h2 : v < 16 := h v (List.mem_cons_self _ _)
    have e0 : nibbles (v :: tl) = v + 16 * nibbles tl := rfl
    match j with
    | 0 =>
      simp only [pow_zero, Nat.div_one, List.getD_cons_zero, e0]
      have : v + 16 * nibbles tl = v + nibbles tl * 16 := by ring
      rw [this, Nat.add_mul_mod_self_right, Nat.mod_eq_of_lt h2]
    | j + 1 =>
      have e1 : (16 : Nat) ^ (j + 1) = 16 * 16 ^ j := by rw [pow_succ]; ring
      rw [e0, e1, ← Nat.div_div_eq_div_mul]
      have e2 : (v + 16 * nibbles tl) / 16 = nibbles tl := by
        have : v + 16 * nibbles tl = v + nibbles tl * 16 := by ring
        rw [this, Nat.add_mul_div_right _ _ (by norm_num : (0:Nat) < 16),
          Nat.div_eq_of_lt h2, Nat.zero_add]
      rw [e2, List.getD_cons_succ]
      exact ih h1 j

theorem pushList_append (st : LutState) (vs ws : List Nat) :
    pushList st (vs ++ ws) = pushList (pushList st vs) ws :=
  List.foldl_append _ _ _ _

theorem pushRange_eq_pushList (v : Nat) : ∀ (k : Nat) (st : LutState),
    pushRange st v k = pushList st (List.replicate k v)
  | 0, st => rfl
  | k + 1, st => by
    rw [pushRange, pushRange_eq_pushList v k (pushEntry st v), List.replicate_succ]
    rfl

theorem buildRanges_eq_pushList : ∀ (table : List (Nat × Nat)) (st : LutState),
    buildRanges st table = pushList st (expand table)
  | [], _ => rfl
  | [_], _ => rfl
  | (s, v) :: (s2, v2) :: rest, st => by
    rw [buildRanges, expand, pushList_append, ← pushRange_eq_pushList,
      buildRanges_eq_pushList ((s2, v2) :: rest)]

/-- After pushing `vs` property values starting from the pristine state,
the packer's state is fully determined: full words hold the packed clamped
values of their eight code points, the current word holds the pending
tail, and all other words are zero. -/
theorem pushList_spec (vs : List Nat) (hlen : vs.length ≤ NUMBER_OF_CODE_POINTS) :
    (pushList ⟨fun _ => 0, 0, 0, 0⟩ vs).wordIndex = vs.length / 8 ∧
    (pushList ⟨fun _ => 0, 0, 0, 0⟩ vs).entryIndex = vs.length % 8 ∧
    (pushList ⟨fun _ => 0, 0, 0, 0⟩ vs).currentWord =
      nibbles ((vs.drop (8 * (vs.length / 8))).map fun v => min v 0xF) ∧
    ∀ j : Nat, (pushList ⟨fun _ => 0, 0, 0, 0⟩ vs).lut j =
      if j < vs.length / 8 then
        nibbles (((vs.drop (8 * j)).take 8).map fun v => min v 0xF)
      else 0 := by
  induction vs using List.reverseRecOn with
  | nil => exact ⟨rfl, rfl, rfl, fun j => by simp [pushList, nibbles]⟩
  | append_singleton ws v ih =>
    have hws : ws.length ≤ NUMBER_OF_CODE_POINTS := by
      rw [List.length_append] at hlen
      omega
    obtain ⟨ihw, ihe, ihc, ihl⟩ := ih hws
    set S := pushList ⟨fun _ => 0, 0, 0, 0⟩ ws with hS
    set L := ws.length with hL
    have hstep : pushList ⟨fun _ => 0, 0, 0, 0⟩ (ws ++ [v]) = pushEntry S v := by
      rw [pushList_append]
      rfl
    -- the pending nibble list and its properties
    set P := ((ws.drop (8 * (L / 8))).map fun v => min v 0xF) with hP
    have hPlen : P.length = L % 8 := by
      rw [hP, List.length_map, List.length_drop]
      omega
    have hPlt : ∀ x ∈ P, x < 16 := by
      intro x hx
      rw [hP] at hx
      obtain ⟨y, _, hy⟩ := List.mem_map.1 hx
      omega
    have hnb : nibbles P < 2 ^ (4 * (L % 8)) := by
      have := nibbles_lt hPlt
      rw [hPlen] at this
      calc nibbles P < 16 ^ (L % 8) := this
        _ = 2 ^ (4 * (L % 8)) := by
          rw [show (16 : Nat) = 2 ^ 4 from rfl, ← pow_mul]
    -- the new packed word
    have hword : S.currentWord ||| (min v 0xF <<< (BITS_PER_WORD * S.entryIndex)) =
        nibbles (P ++ [min v 0xF]) := by
      rw [ihc, ihe]
      rw [show BITS_PER_WORD * (L % 8) = 4 * (L % 8) from rfl]
      rw [lor_shiftLeft_eq_add hnb, nibbles_append_singleton, hPlen]
      rw [show (16 : Nat) = 2 ^ 4 from rfl, ← pow_mul]
    have hdropapp : (ws ++ [v]).drop (8 * (L / 8)) = ws.drop (8 * (L / 8)) ++ [v] :=
      List.drop_append_of_le_length (by omega)
    have hPapp : ((ws ++ [v]).drop (8 * (L / 8))).map (fun v => min v 0xF) =
        P ++ [min v 0xF] := by
      rw [hdropapp, List.map_append, hP]
      rfl
    have hlen' : (ws ++ [v]).length = L + 1 := by
      rw [List.length_append, List.length_cons, List.length_nil]
    rw [hstep]
    rw [pushEntry]
    by_cases hflush : S.entryIndex + 1 = ENTRIES_PER_WORD
    · -- flush: the eighth entry of the word was just packed
      have hmod : L % 8 = 7 := by
        rw [ihe] at hflush
        have h8 : ENTRIES_PER_WORD = 8 := rfl
        omega
      rw [if_pos hflush]
      refine ⟨?_, ?_, ?_, ?_⟩
      · show S.wordIndex + 1 = (ws ++ [v]).length / 8
        rw [ihw, hlen']
        omega
      · show 0 = (ws ++ [v]).length % 8
        rw [hlen']
        omega
      · show 0 = nibbles (((ws ++ [v]).drop (8 * ((ws ++ [v]).length / 8))).map fun v =>
          min v 0xF)
        have h8 : 8 * ((L + 1) / 8) = L + 1 := by omega
        rw [hlen', h8]
        rw [List.drop_eq_nil_of_le (by rw [hlen']), List.map_nil]
        rfl
      · intro j
        show uset S.lut S.wordIndex
            (S.currentWord ||| (min v 0xF <<< (BITS_PER_WORD * S.entryIndex))) j = _
        rw [hword, uset, hlen']
        have hLdiv : (L + 1) / 8 = L / 8 + 1 := by omega
        have hBound : L / 8 < lutSize := by
          have : lutSize = 139264 := rfl
          have : L < NUMBER_OF_CODE_POINTS := by
            rcases Nat.lt_or_ge L NUMBER_OF_CODE_POINTS with h | h
            · exact h
            · exfalso
              have : L = NUMBER_OF_CODE_POINTS := by omega
              have h2 : NUMBER_OF_CODE_POINTS % 8 = 0 := by decide
              omega
          have h3 : NUMBER_OF_CODE_POINTS = 1114112 := rfl
          omega
        by_cases hj : j = S.wordIndex
        · rw [if_pos ⟨hj, by rw [ihw]; exact hBound⟩, hj, ihw, hLdiv, if_pos (by omega)]
          congr 1
          rw [hdropapp]
          have htake : (ws.drop (8 * (L / 8)) ++ [v]).take 8 =
              ws.drop (8 * (L / 8)) ++ [v] := by
            apply List.take_of_length_le
            rw [List.length_append, List.length_drop]
            simp only [List.length_cons, List.length_nil]
            omega
          rw [htake, List.map_append]
          rfl
        · rw [if_neg (fun hc => hj hc.1), ihl j, hLdiv, ihw] at *
          rw [ihw] at hj
          by_cases hjlt : j < L / 8
          · rw [if_pos hjlt, if_pos (by omega)]
            congr 2
            rw [List.drop_append_of_le_length (by omega),
              List.take_append_of_le_length (by rw [List.length_drop]; omega)]
          · rw [if_neg hjlt, if_neg (by omega)]
    · -- no flush: the word is still being filled
      have hmod : L % 8 ≠ 7 := by
        rw [ihe] at hflush
        have h8 : ENTRIES_PER_WORD = 8 := rfl
        omega
      rw [if_neg hflush]
      have hLdiv : (L + 1) / 8 = L / 8 := by omega
      have hLmod : (L + 1) % 8 = L % 8 + 1 := by omega
      refine ⟨?_, ?_, ?_, ?_⟩
      · show S.wordIndex = (ws ++ [v]).length / 8
        rw [ihw, hlen', hLdiv]
      · show S.entryIndex + 1 = (ws ++ [v]).length % 8
        rw [ihe, hlen', hLmod]
      · show S.currentWord ||| (min v 0xF <<< (BITS_PER_WORD * S.entryIndex)) = _
        rw [hword, hlen', hLdiv, hPapp]
      · intro j
        show S.lut j = _
        rw [ihl j, hlen', hLdiv]
        by_cases hjlt : j < L / 8
        · rw [if_pos hjlt, if_pos hjlt]
          congr 2
          rw [List.drop_append_of_le_length (by omega),
            List.take_append_of_le_length (by rw [List.length_drop]; omega)]
        · rw [if_neg hjlt, if_neg hjlt]

theorem map_getD_drop_take {f : Nat → Nat} (vs : List Nat) (a j d : Nat) (hj : j < 8) :
    (((vs.drop a).take 8).map f).getD j d = (vs.map f).getD (a + j) d := by
  rw [List.getD_eq_getElem?_getD, List.getD_eq_getElem?_getD, List.getElem?_map,
    List.getElem?_take, if_pos hj, List.getElem?_drop, List.getElem?_map]

theorem map_getD_drop {f : Nat → Nat} (vs : List Nat) (a j d : Nat) :
    ((vs.drop a).map f).getD j d = (vs.map f).getD (a + j) d := by
  rw [List.getD_eq_getElem?_getD, List.getD_eq_getElem?_getD, List.getElem?_map,
    List.getElem?_drop, List.getElem?_map]

/-- The packed table resolves every code point below 0x110000 to the
clamped per-code-point value written by the double loop (or to 0 past the
values actually written, which are exactly the code points of the last
range). -/
theorem lookupProperty_createLookupTable (table : List (Nat × Nat))
    (hlen : (expand table).length ≤ NUMBER_OF_CODE_POINTS) (cp : Nat) :
    lookupProperty (createLookupTable table) cp =
      ((expand table).map fun v => min v 0xF).getD cp 0 := by
  set vs := expand table with hvs
  set L := vs.length with hL
  obtain ⟨hw, he, hc, hl⟩ := pushList_spec vs hlen
  set S := pushList ⟨fun _ => 0, 0, 0, 0⟩ vs with hS
  have hbuild : createLookupTable table =
      if S.entryIndex ≠ 0 then uset S.lut S.wordIndex S.currentWord else S.lut := by
    rw [createLookupTable, buildRanges_eq_pushList]
  -- arithmetic form of the extraction
  have hsr : cp >>> 3 = cp / 8 := by
    rw [Nat.shiftRight_eq_div_pow]
  have hand : cp &&& 0b111 = cp % 8 := Nat.and_pow_two_sub_one_eq_mod cp 3
  have hextract : ∀ w : Nat, (w >>> ((cp % 8) * BITS_PER_WORD)) &&& 0xF =
      w / 16 ^ (cp % 8) % 16 := by
    intro w
    rw [Nat.shiftRight_eq_div_pow]
    rw [show (0xF : Nat) = 2 ^ 4 - 1 from rfl, Nat.and_pow_two_sub_one_eq_mod]
    congr 2
    rw [show (16 : Nat) = 2 ^ 4 from rfl, ← pow_mul]
    rw [show BITS_PER_WORD = 4 from rfl, Nat.mul_comm]
  have hlook : lookupProperty (createLookupTable table) cp =
      (createLookupTable table) (cp / 8) / 16 ^ (cp % 8) % 16 := by
    rw [lookupProperty]
    rw [hsr, hand, hextract]
  rw [hlook, hbuild]
  have hmod8 : cp % 8 < 8 := Nat.mod_lt _ (by norm_num)
  have hcpsplit : 8 * (cp / 8) + cp % 8 = cp := by omega
  -- the value read from a full window
  have hwindow : ∀ hjlt : cp / 8 < L / 8,
      nibbles (((vs.drop (8 * (cp / 8))).take 8).map fun v => min v 0xF) /
        16 ^ (cp % 8) % 16 = (vs.map fun v => min v 0xF).getD cp 0 := by
    intro _
    rw [nibbles_getD (by
      intro x hx
      obtain ⟨y, _, hy⟩ := List.mem_map.1 hx
      omega)]
    rw [map_getD_drop_take vs _ _ _ hmod8, hcpsplit]
  by_cases hflush : S.entryIndex ≠ 0
  · rw [if_pos hflush]
    rw [he] at hflush
    have hLlt : L < NUMBER_OF_CODE_POINTS := by
      have h8 : NUMBER_OF_CODE_POINTS % 8 = 0 := by decide
      omega
    have hbound : L / 8 < lutSize := by
      have h1 : lutSize = 139264 := rfl
      have h2 : NUMBER_OF_CODE_POINTS = 1114112 := rfl
      omega
    rw [uset]
    by_cases heq : cp / 8 = S.wordIndex
    · rw [if_pos ⟨heq, by rw [hw]; exact hbound⟩, hc]
      rw [nibbles_getD (by
        intro x hx
        obtain ⟨y, _, hy⟩ := List.mem_map.1 hx
        omega)]
      rw [map_getD_drop vs _ _ _]
      congr 1
      rw [hw] at heq
      omega
    · rw [if_neg (fun hcon => heq hcon.1), hl (cp / 8)]
      rw [hw] at heq
      by_cases hjlt : cp / 8 < L / 8
      · rw [if_pos hjlt]
        exact hwindow hjlt
      · rw [if_neg hjlt]
        rw [Nat.zero_div, Nat.zero_mod]
        rw [List.getD_eq_default]
        rw [List.length_map]
        omega
  · rw [if_neg hflush]
    rw [he] at hflush
    have hLmod : L % 8 = 0 := by omega
    rw [hl (cp / 8)]
    by_cases hjlt : cp / 8 < L / 8
    · rw [if_pos hjlt]
      exact hwindow hjlt
    · rw [if_neg hjlt]
      rw [Nat.zero_div, Nat.zero_mod]
      rw [List.getD_eq_default]
      rw [List.length_map]
      omega

/-- Starts strictly below the head's start propagate down a sorted
chain. -/
theorem chain_starts_lt {x : Nat × Nat} {l : List (Nat × Nat)}
    (h : List.Chain' (fun a b : Nat × Nat => a.1 < b.1) (x :: l)) :
    ∀ e ∈ l, x.1 < e.1 := by
  induction l generalizing x with
  | nil => intro e he; cases he
  | cons y tl ih =>
    intro e he
    have h1 : x.1 < y.1 := (List.chain'_cons.1 h).1
    rcases List.mem_cons.1 he with he | he
    · rw [he]; exact h1
    · have := ih (List.chain'_cons.1 h).2 e he
      omega

theorem rangeFold_const {c : Nat} : ∀ (l : List (Nat × Nat)) (acc : Nat),
    (∀ e ∈ l, ¬ e.1 ≤ c) →
    l.foldl (fun acc e => if e.1 ≤ c then e.2 else acc) acc = acc
  | [], _, _ => rfl
  | e :: tl, acc, h => by
    rw [List.foldl_cons, if_neg (h e (List.mem_cons_self _ _))]
    exact rangeFold_const tl acc fun x hx => h x (List.mem_cons_of_mem _ hx)

theorem rangeFold_irrel {c : Nat} : ∀ (l : List (Nat × Nat)) (a b : Nat),
    (∃ e ∈ l, e.1 ≤ c) →
    l.foldl (fun acc e => if e.1 ≤ c then e.2 else acc) a =
      l.foldl (fun acc e => if e.1 ≤ c then e.2 else acc) b
  | [], _, _, h => absurd h (by simp)
  | e :: tl, a, b, h => by
    rw [List.foldl_cons, List.foldl_cons]
    by_cases hc : e.1 ≤ c
    · rw [if_pos hc, if_pos hc]
    · rw [if_neg hc, if_neg hc]
      refine rangeFold_irrel tl a b ?_
      obtain ⟨x, hx, hxc⟩ := h
      rcases List.mem_cons.1 hx with hx | hx
      · exact absurd (hx ▸ hxc) hc
      · exact ⟨x, hx, hxc⟩

theorem rangeValue_head_eq {s v c : Nat} {tail : List (Nat × Nat)} (hs : s ≤ c)
    (htail : ∀ e ∈ tail, c < e.1) : rangeValue ((s, v) :: tail) c = v := by
  rw [rangeValue, List.foldl_cons]
  rw [if_pos hs]
  exact rangeFold_const tail v fun e he => by have := htail e he; omega

theorem rangeValue_tail_eq {x : Nat × Nat} {tail : List (Nat × Nat)} {c : Nat}
    (h : ∃ e ∈ tail, e.1 ≤ c) : rangeValue (x :: tail) c = rangeValue tail c := by
  rw [rangeValue, rangeValue, List.foldl_cons]
  exact rangeFold_irrel tail _ _ h

theorem rangeFold_le {c m : Nat} : ∀ (l : List (Nat × Nat)) (acc : Nat), acc ≤ m →
    (∀ e ∈ l, e.2 ≤ m) →
    l.foldl (fun acc e => if e.1 ≤ c then e.2 else acc) acc ≤ m
  | [], _, ha, _ => ha
  | e :: tl, acc, ha, h => by
    rw [List.foldl_cons]
    refine rangeFold_le tl _ ?_ fun x hx => h x (List.mem_cons_of_mem _ hx)
    by_cases hc : e.1 ≤ c
    · rw [if_pos hc]; exact h e (List.mem_cons_self _ _)
    · rw [if_neg hc]; exact ha

/-- All values of the table bounded gives a bounded resolver result. -/
theorem rangeValue_le {table : List (Nat × Nat)} {c m : Nat}
    (h : ∀ e ∈ table, e.2 ≤ m) : rangeValue table c ≤ m :=
  rangeFold_le table 0 (Nat.zero_le m) h

theorem expand_length (hsorted : List.Chain' (fun a b : Nat × Nat => a.1 < b.1) table) :
    ∀ {s v sl vl : Nat}, table.head? = some (s, v) → table.getLast? = some (sl, vl) →
    (expand table).length + s = sl := by
  induction table with
  | nil => intro s v sl vl h; cases h
  | cons a tl ih =>
    match a, tl with
    | (s0, v0), [] =>
      intro s v sl vl h1 h2
      simp only [List.head?_cons, Option.some.injEq, Prod.mk.injEq] at h1
      simp only [List.getLast?_singleton, Option.some.injEq, Prod.mk.injEq] at h2
      have hz : (expand [(s0, v0)]).length = 0 := rfl
      omega
    | (s0, v0), (s2, v2) :: rest =>
      intro s v sl vl h1 h2
      simp only [List.head?_cons, Option.some.injEq, Prod.mk.injEq] at h1
      rw [List.getLast?_cons_cons] at h2
      have hlt : s0 < s2 := (List.chain'_cons.1 hsorted).1
      have ihl := ih (List.chain'_cons.1 hsorted).2 (s := s2) (v := v2)
        (by simp) h2
      have hexp : (expand ((s0, v0) :: (s2, v2) :: rest)).length =
          (s2 - s0) + (expand ((s2, v2) :: rest)).length := by
        have he : expand ((s0, v0) :: (s2, v2) :: rest) =
            List.replicate (s2 - s0) v0 ++ expand ((s2, v2) :: rest) := rfl
        rw [he, List.length_append, List.length_replicate]
      omega

theorem expand_getD (hsorted : List.Chain' (fun a b : Nat × Nat => a.1 < b.1) table) :
    ∀ {s v : Nat}, table.head? = some (s, v) → ∀ k, k < (expand table).length →
    (expand table).getD k 0 = rangeValue table (s + k) := by
  induction table with
  | nil => intro s v h; cases h
  | cons a tl ih =>
    match a, tl with
    | a, [] =>
      intro s v _ k hk
      exact absurd hk (by rw [show expand [a] = [] from rfl]; simp)
    | (s0, v0), (s2, v2) :: rest =>
      intro s v h1 k hk
      simp only [List.head?_cons, Option.some.injEq, Prod.mk.injEq] at h1
      obtain ⟨hs0, hv0⟩ := h1
      subst hs0
      have hlt : s0 < s2 := (List.chain'_cons.1 hsorted).1
      have hexpeq : expand ((s0, v0) :: (s2, v2) :: rest) =
          List.replicate (s2 - s0) v0 ++ expand ((s2, v2) :: rest) := rfl
      rw [hexpeq] at hk ⊢
      rw [List.length_append, List.length_replicate] at hk
      by_cases hkl : k < s2 - s0
      · rw [List.getD_eq_getElem?_getD, List.getElem?_append, List.length_replicate,
          if_pos hkl, List.getElem?_replicate, if_pos hkl]
        have htail : ∀ e ∈ (s2, v2) :: rest, s0 + k < e.1 := by
          intro e he
          rcases List.mem_cons.1 he with he | he
          · rw [he]
            change s0 + k < s2
            omega
          · have := chain_starts_lt (List.chain'_cons.1 hsorted).2 e he
            change s2 < e.1 at this
            omega
        rw [rangeValue_head_eq (by omega) htail]
        rfl
      · rw [List.getD_eq_getElem?_getD,
          List.getElem?_append_right (by rw [List.length_replicate]; omega),
          List.length_replicate, ← List.getD_eq_getElem?_getD]
        have ihk := ih (List.chain'_cons.1 hsorted).2 (s := s2) (v := v2) (by simp)
          (k - (s2 - s0)) (by omega)
        rw [ihk]
        have harg : s2 + (k - (s2 - s0)) = s0 + k := by omega
        rw [harg]
        have hmem : ∃ e ∈ (s2, v2) :: rest, e.1 ≤ s0 + k :=
          ⟨(s2, v2), List.mem_cons_self _ _, by change s2 ≤ s0 + k; omega⟩
        rw [rangeValue_tail_eq hmem]

theorem rangeValue_beyond (hsorted : List.Chain' (fun a b : Nat × Nat => a.1 < b.1) table) :
    ∀ {sl vl c : Nat}, table.getLast? = some (sl, vl) → sl ≤ c →
    rangeValue table c = vl := by
  induction table with
  | nil => intro sl vl c h; cases h
  | cons a tl ih =>
    match a, tl with
    | (s0, v0), [] =>
      intro sl vl c h2 hc
      simp only [List.getLast?_singleton, Option.some.injEq, Prod.mk.injEq] at h2
      have hr : rangeValue [(s0, v0)] c = if s0 ≤ c then v0 else 0 := rfl
      rw [hr, if_pos (show s0 ≤ c by omega)]
      omega
    | a, b :: rest =>
      intro sl vl c h2 hc
      rw [List.getLast?_cons_cons] at h2
      have hmem : (sl, vl) ∈ b :: rest := List.mem_of_mem_getLast? h2
      rw [rangeValue_tail_eq ⟨(sl, vl), hmem, hc⟩]
      exact ih (List.chain'_cons.1 hsorted).2 h2 hc

end Packed

/-- Claim C6, counterexample: the 4-bit store of `createLookupTable`
clamps every range value with `min(value, 0xF)`, so a range carrying the
enum value 17 (Katakana in the generated table's first-occurrence
numbering; the source's own comment notes 5 bits would be required) reads
back as 0xF = 15 (Hebrew_Letter) while the reference resolver gives 17:
the packed resolver does NOT return the reference value for every scalar
value. -/
theorem c6_counterexample :
    Packed.property [(0, 0), (0x8, 17), (0x10, 0)] 0 0 0 0 0 0x8 = 0xF ∧
    Packed.rangeValue [(0, 0), (0x8, 17), (0x10, 0)] 0x8 = 17 ∧
    ¬ Packed.property [(0, 0), (0x8, 17), (0x10, 0)] 0 0 0 0 0 0x8 =
        Packed.rangeValue [(0, 0), (0x8, 17), (0x10, 0)] 0x8 := by
  refine ⟨by decide, by decide, by decide⟩

/-- Claim C6, amended: away from the five hard-coded characters the packed
resolver of `src/findBoundaries.ts` returns `min(reference, 0xF)` — the
reference value clamped to 4 bits — and it agrees with the reference
definition (the value of the sorted range-table entry with the greatest
`start ≤ c`) exactly where that value fits in 4 bits.  Enum values 16..18
of the generated table (ZWJ, Katakana, Regional_Indicator) exceed 0xF and
are misreported as 15 (Hebrew_Letter), except that the single-code-point
ZWJ character U+200D is rescued by its hard-coded comparison.  The
structural hypotheses are the generator's guarantees about the
(not-shipped) table: sorted strictly increasing starts beginning at 0 and
bounded by 0x10FFFF, final value `Other` (= 0, asserted by the source),
and the five hard-coded enum constants agreeing with the table. -/
theorem c6_packed_property_clamped (table : List (Nat × Nat)) (vLF vCR vDQ vSQ vZWJ : Nat)
    (hsorted : List.Chain' (fun a b : Nat × Nat => a.1 < b.1) table)
    (hhead : table.head?.map Prod.fst = some 0)
    (hlastv : table.getLast?.map Prod.snd = some 0)
    (hbound : ∀ e ∈ table, e.1 ≤ 0x10FFFF)
    (hLF : vLF = Packed.rangeValue table 0xA) (hCR : vCR = Packed.rangeValue table 0xD)
    (hDQ : vDQ = Packed.rangeValue table 0x22) (hSQ : vSQ = Packed.rangeValue table 0x27)
    (hZWJ : vZWJ = Packed.rangeValue table 0x200D) :
    ∀ c : Nat, c < 0x110000 →
      (c ≠ 0xA → c ≠ 0xD → c ≠ 0x22 → c ≠ 0x27 → c ≠ 0x200D →
        Packed.property table vLF vCR vDQ vSQ vZWJ c =
          min (Packed.rangeValue table c) 0xF) ∧
      (Packed.rangeValue table c ≤ 0xF →
        Packed.property table vLF vCR vDQ vSQ vZWJ c = Packed.rangeValue table c) := by
  -- unpack the head and last entries
  obtain ⟨hp, hhp, hp1⟩ : ∃ p : Nat × Nat, table.head? = some p ∧ p.1 = 0 := by
    cases h : table.head? with
    | none => rw [h] at hhead; cases hhead
    | some p =>
      rw [h] at hhead
      exact ⟨p, rfl, by simpa using hhead⟩
  obtain ⟨q, hq, hq2⟩ : ∃ q : Nat × Nat, table.getLast? = some q ∧ q.2 = 0 := by
    cases h : table.getLast? with
    | none => rw [h] at hlastv; cases hlastv
    | some q =>
      rw [h] at hlastv
      exact ⟨q, rfl, by simpa using hlastv⟩
  have hhead' : table.head? = some (0, hp.2) := by
    rw [hhp]
    rw [← hp1]
  have hlast' : table.getLast? = some (q.1, q.2) := by
    rw [hq]
  have hlenq : (Packed.expand table).length + 0 = q.1 :=
    Packed.expand_length hsorted hhead' hlast'
  have hqmem : q ∈ table := List.mem_of_mem_getLast? hq
  have hq1 : q.1 ≤ 0x10FFFF := hbound q hqmem
  have hlen : (Packed.expand table).length ≤ Packed.NUMBER_OF_CODE_POINTS := by
    have : Packed.NUMBER_OF_CODE_POINTS = 0x110000 := rfl
    omega
  have hmain : ∀ c : Nat,
      Packed.lookupProperty (Packed.createLookupTable table) c =
        min ((Packed.expand table).getD c 0) 0xF := by
    intro c
    rw [Packed.lookupProperty_createLookupTable table hlen c]
    rw [List.getD_eq_getElem?_getD, List.getElem?_map, List.getD_eq_getElem?_getD]
    cases (Packed.expand table)[c]? with
    | none => rfl
    | some a => rfl
  have hlut : ∀ c : Nat, c < 0x110000 →
      Packed.lookupProperty (Packed.createLookupTable table) c =
        min (Packed.rangeValue table c) 0xF := by
    intro c hc
    rw [hmain c]
    by_cases hcl : c < (Packed.expand table).length
    · rw [Packed.expand_getD hsorted hhead' c hcl, Nat.zero_add]
    · rw [List.getD_eq_default _ _ (by omega)]
      have hbeyond : Packed.rangeValue table c = q.2 :=
        Packed.rangeValue_beyond hsorted hlast' (by omega)
      rw [hbeyond, hq2]
  intro c hc
  constructor
  · intro h1 h2 h3 h4 h5
    rw [Packed.property, if_neg h1, if_neg h2, if_neg h3, if_neg h4, if_neg h5]
    exact hlut c hc
  · intro hfitc
    rw [Packed.property]
    by_cases h1 : c = 0xA
    · rw [if_pos h1, h1, hLF]
    rw [if_neg h1]
    by_cases h2 : c = 0xD
    · rw [if_pos h2, h2, hCR]
    rw [if_neg h2]
    by_cases h3 : c = 0x22
    · rw [if_pos h3, h3, hDQ]
    rw [if_neg h3]
    by_cases h4 : c = 0x27
    · rw [if_pos h4, h4, hSQ]
    rw [if_neg h4]
    by_cases h5 : c = 0x200D
    · rw [if_pos h5, h5, hZWJ]
    rw [if_neg h5]
    rw [hlut c hc]
    exact Nat.min_eq_left hfitc

/-- Witness for `c6_packed_property_clamped` at a small concrete table:
on the letter A (0x41, table value 11, fitting in 4 bits) the packed
resolver returns the clamp `min(reference, 0xF)` and agrees with the
reference resolver. -/
theorem c6_packed_property_clamped_witness :
    (Packed.property [(0, 0), (0x41, 11), (0x5B, 0)] 0 0 0 0 0 0x41 =
      min (Packed.rangeValue [(0, 0), (0x41, 11), (0x5B, 0)] 0x41) 0xF) ∧
    Packed.property [(0, 0), (0x41, 11), (0x5B, 0)] 0 0 0 0 0 0x41 =
      Packed.rangeValue [(0, 0), (0x41, 11), (0x5B, 0)] 0x41 := by
  have h := c6_packed_property_clamped [(0, 0), (0x41, 11), (0x5B, 0)] 0 0 0 0 0
    (List.Chain'.cons (by decide) (List.Chain'.cons (by decide)
      (List.chain'_singleton _)))
    (by decide) (by decide) (by decide)
    (by decide) (by decide) (by decide) (by decide) (by decide)
    0x41 (by decide)
  exact ⟨h.1 (by decide) (by decide) (by decide) (by decide) (by decide),
    h.2 (by decide)⟩

/-! ## Lemmas about the boundary engine -/

theorem positionAfter_gt {text : List Nat} {p : Nat} (h : p < text.length) :
    p < positionAfter text p := by
  rw [positionAfter, if_neg (by omega)]
  split <;> omega

theorem positionAfter_of_ge {text : List Nat} {p : Nat} (h : text.length ≤ p) :
    positionAfter text p = text.length := by
  rw [positionAfter, if_pos h]

theorem positionAfter_le_len_succ (text : List Nat) (p : Nat) :
    positionAfter text p ≤ text.length + 1 := by
  rw [positionAfter]
  split
  · omega
  · split <;> omega

theorem posRel_positionAfter (text : List Nat) (p : Nat) :
    PosRel text p (positionAfter text p) := by
  rcases Nat.lt_or_ge p text.length with h | h
  · exact Or.inl (positionAfter_gt h)
  · exact Or.inr ⟨positionAfter_of_ge h, h⟩

theorem wbAt_eq_eot_iff {prop : Nat → WordBreakProperty} {text : List Nat} {p : Nat} :
    wordbreakPropertyAt prop text p = WinProp.eot ↔ text.length ≤ p := by
  rw [wordbreakPropertyAt]
  split
  · next h => exact iff_of_true rfl h
  · next h => exact iff_of_false (fun hc => by cases hc) h

theorem wbAt_ne_sot (prop : Nat → WordBreakProperty) (text : List Nat) (p : Nat) :
    wordbreakPropertyAt prop text p ≠ WinProp.sot := by
  rw [wordbreakPropertyAt]
  split
  · intro hc; cases hc
  · intro hc; cases hc

theorem lt_of_wbAt_eq_wb {prop : Nat → WordBreakProperty} {text : List Nat} {p : Nat}
    {q : WordBreakProperty} (h : wordbreakPropertyAt prop text p = WinProp.wb q) :
    p < text.length := by
  by_contra hc
  rw [wbAt_eq_eot_iff.2 (by omega)] at h
  cases h

theorem isScalarBoundary_positionAfter {text : List Nat} {p : Nat}
    (hwf : WellFormedUTF16 text) (h : isScalarBoundary text p) :
    isScalarBoundary text (positionAfter text p) := by
  obtain ⟨hle, hal⟩ := h
  rcases Nat.lt_or_ge p text.length with hp | hp
  · rw [positionAfter, if_neg (by omega)]
    by_cases hh : isStartOfSurrogatePair (unitAt text p) = true
    · rw [if_pos hh]
      obtain ⟨hlt, hlow⟩ := ((hwf p hp).1 hh)
      constructor
      · omega
      · rcases Nat.lt_or_ge (p + 2) text.length with h2 | h2
        · right
          by_contra hc
          rw [Bool.not_eq_false] at hc
          have := ((hwf (p + 2) h2).2 hc).2
          have h3 : p + 2 - 1 = p + 1 := by omega
          rw [h3] at this
          rw [isLowSurrogate] at hlow
          rw [isStartOfSurrogatePair] at this
          simp only [decide_eq_true_eq] at hlow this
          omega
        · left; omega
    · rw [if_neg hh]
      constructor
      · omega
      · rcases Nat.lt_or_ge (p + 1) text.length with h2 | h2
        · right
          by_contra hc
          rw [Bool.not_eq_false] at hc
          have := ((hwf (p + 1) h2).2 hc).2
          have h3 : p + 1 - 1 = p := by omega
          rw [h3] at this
          exact hh this
        · left; omega
  · rw [positionAfter_of_ge hp]
    exact ⟨le_rfl, Or.inl rfl⟩

/-- Characterisation of the first WB4 sweep: with a paired window and
enough fuel it terminates with `right` outside {Format, Extend, ZWJ},
preserves the pairing, the position relation and the bounds, moves only
forward, is independent of the exact fuel, and keeps positions on scalar
boundaries for well-formed input. -/
theorem wb4SkipRight_spec (prop : Nat → WordBreakProperty) (text : List Nat) :
    ∀ (fuel rp lap : Nat) (r la : WinProp),
      r = wordbreakPropertyAt prop text rp →
      la = wordbreakPropertyAt prop text lap →
      PosRel text rp lap →
      rp ≤ text.length + 1 → lap ≤ text.length + 1 →
      text.length - rp < fuel →
      ∃ rp2 lap2 r2 la2,
        wb4SkipRight prop text fuel rp lap r la = (rp2, lap2, r2, la2) ∧
        r2 = wordbreakPropertyAt prop text rp2 ∧
        la2 = wordbreakPropertyAt prop text lap2 ∧
        PosRel text rp2 lap2 ∧ rp ≤ rp2 ∧ rp2 ≤ text.length + 1 ∧
        lap2 ≤ text.length + 1 ∧
        ¬(r2 = WinProp.wb .Format ∨ r2 = WinProp.wb .Extend ∨ r2 = WinProp.wb .ZWJ) ∧
        (∀ fuel2, text.length - rp < fuel2 →
          wb4SkipRight prop text fuel2 rp lap r la = (rp2, lap2, r2, la2)) ∧
        (WellFormedUTF16 text → isScalarBoundary text rp → isScalarBoundary text lap →
          isScalarBoundary text rp2 ∧ isScalarBoundary text lap2) := by
  intro fuel
  induction fuel with
  | zero =>
    intro rp lap r la _ _ _ _ _ hf
    omega
  | succ fuel ih =>
    intro rp lap r la hr hla hrel hrp hlap hf
    by_cases hcond : r = WinProp.wb .Format ∨ r = WinProp.wb .Extend ∨ r = WinProp.wb .ZWJ
    · have hrplen : rp < text.length := by
        rcases hcond with h | h | h <;>
        · rw [h] at hr
          exact lt_of_wbAt_eq_wb hr.symm
      have hlt : rp < lap := by
        rcases hrel with h | h
        · exact h
        · omega
      obtain ⟨rp2, lap2, r2, la2, heq, h1, h2, h3, h4, h5, h6, h7, hirr, hwf⟩ :=
        ih lap (positionAfter text lap) la (wordbreakPropertyAt prop text
            (positionAfter text lap))
          hla rfl (posRel_positionAfter text lap) hlap
          (positionAfter_le_len_succ text lap) (by omega)
      refine ⟨rp2, lap2, r2, la2, ?_, h1, h2, h3, by omega, h5, h6, h7, ?_, ?_⟩
      · rw [wb4SkipRight, if_pos hcond]
        exact heq
      · intro fuel2 hf2
        match fuel2, hf2 with
        | fuel2 + 1, hf2 =>
          rw [wb4SkipRight, if_pos hcond]
          exact hirr fuel2 (by omega)
      · intro hwf' ha hb
        exact hwf hwf' hb (isScalarBoundary_positionAfter hwf' hb)
    · refine ⟨rp, lap, r, la, ?_, hr, hla, hrel, le_rfl, hrp, hlap, hcond, ?_, ?_⟩
      · rw [wb4SkipRight, if_neg hcond]
      · intro fuel2 hf2
        match fuel2, hf2 with
        | fuel2 + 1, _ => rw [wb4SkipRight, if_neg hcond]
      · intro _ ha hb
        exact ⟨ha, hb⟩

/-- Characterisation of the second WB4 sweep (on the lookahead slot),
analogous to `wb4SkipRight_spec`. -/
theorem wb4SkipLookahead_spec (prop : Nat → WordBreakProperty) (text : List Nat) :
    ∀ (fuel lap : Nat) (la : WinProp),
      la = wordbreakPropertyAt prop text lap →
      lap ≤ text.length + 1 →
      text.length - lap < fuel →
      ∃ lap2 la2,
        wb4SkipLookahead prop text fuel lap la = (lap2, la2) ∧
        la2 = wordbreakPropertyAt prop text lap2 ∧
        lap ≤ lap2 ∧ lap2 ≤ text.length + 1 ∧
        (∀ rp, PosRel text rp lap → PosRel text rp lap2) ∧
        (∀ fuel2, text.length - lap < fuel2 →
          wb4SkipLookahead prop text fuel2 lap la = (lap2, la2)) ∧
        (WellFormedUTF16 text → isScalarBoundary text lap → isScalarBoundary text lap2) := by
  intro fuel
  induction fuel with
  | zero =>
    intro lap la _ _ hf
    omega
  | succ fuel ih =>
    intro lap la hla hlap hf
    by_cases hcond : la = WinProp.wb .Format ∨ la = WinProp.wb .Extend ∨ la = WinProp.wb .ZWJ
    · have hlaplen : lap < text.length := by
        rcases hcond with h | h | h <;>
        · rw [h] at hla
          exact lt_of_wbAt_eq_wb hla.symm
      obtain ⟨lap2, la2, heq, h1, h2, h3, h4, hirr, hwf⟩ :=
        ih (positionAfter text lap) (wordbreakPropertyAt prop text (positionAfter text lap))
          rfl (positionAfter_le_len_succ text lap) (by
            have := positionAfter_gt hlaplen
            omega)
      refine ⟨lap2, la2, ?_, h1, ?_, h3, ?_, ?_, ?_⟩
      · rw [wb4SkipLookahead, if_pos hcond]
        exact heq
      · have := positionAfter_gt hlaplen
        omega
      · intro rp hrel
        refine h4 rp ?_
        rcases hrel with h | h
        · exact Or.inl (lt_of_lt_of_le (lt_of_lt_of_le h (le_refl _))
            (le_of_lt (positionAfter_gt hlaplen)) |>.trans_le (le_refl _))
        · omega
      · intro fuel2 hf2
        match fuel2, hf2 with
        | fuel2 + 1, hf2 =>
          rw [wb4SkipLookahead, if_pos hcond]
          have := positionAfter_gt hlaplen
          exact hirr fuel2 (by omega)
      · intro hwf' hb
        exact hwf hwf' (isScalarBoundary_positionAfter hwf' hb)
    · refine ⟨lap, la, ?_, hla, le_rfl, hlap, fun rp h => h, ?_, fun _ hb => hb⟩
      · rw [wb4SkipLookahead, if_neg hcond]
      · intro fuel2 hf2
        match fuel2, hf2 with
        | fuel2 + 1, _ => rw [wb4SkipLookahead, if_neg hcond]

/-- The late rule cascade always continues with the window it was given;
it yields the current position or nothing. -/
theorem lateRules_spec (lb l r la : WinProp) (rp lap nRI : Nat) :
    ∃ n2 ys, lateRules lb l r la rp lap nRI = (ys, some ⟨rp, lap, lb, l, r, la, n2⟩) ∧
      (ys = [] ∨ ys = [rp]) := by
  generalize hE : lateRules lb l r la rp lap nRI = res
  rw [lateRules] at hE
  by_cases h1 : (isAHLetter l && isAHLetter r) = true
  · rw [if_pos h1] at hE; subst hE; exact ⟨_, _, rfl, Or.inl rfl⟩
  rw [if_neg h1] at hE
  by_cases h2 : (isAHLetter l && isAHLetter la &&
      (r == WinProp.wb .MidLetter || isMidNumLetQ r)) = true
  · rw [if_pos h2] at hE; subst hE; exact ⟨_, _, rfl, Or.inl rfl⟩
  rw [if_neg h2] at hE
  by_cases h3 : (isAHLetter lb && isAHLetter r &&
      (l == WinProp.wb .MidLetter || isMidNumLetQ l)) = true
  · rw [if_pos h3] at hE; subst hE; exact ⟨_, _, rfl, Or.inl rfl⟩
  rw [if_neg h3] at hE
  by_cases h4 : l = WinProp.wb .Hebrew_Letter ∧ r = WinProp.wb .Single_Quote
  · rw [if_pos h4] at hE; subst hE; exact ⟨_, _, rfl, Or.inl rfl⟩
  rw [if_neg h4] at hE
  by_cases h5 : l = WinProp.wb .Hebrew_Letter ∧ r = WinProp.wb .Double_Quote ∧
      la = WinProp.wb .Hebrew_Letter
  · rw [if_pos h5] at hE; subst hE; exact ⟨_, _, rfl, Or.inl rfl⟩
  rw [if_neg h5] at hE
  by_cases h6 : lb = WinProp.wb .Hebrew_Letter ∧ l = WinProp.wb .Double_Quote ∧
      r = WinProp.wb .Hebrew_Letter
  · rw [if_pos h6] at hE; subst hE; exact ⟨_, _, rfl, Or.inl rfl⟩
  rw [if_neg h6] at hE
  by_cases h7 : l = WinProp.wb .Numeric ∧ r = WinProp.wb .Numeric
  · rw [if_pos h7] at hE; subst hE; exact ⟨_, _, rfl, Or.inl rfl⟩
  rw [if_neg h7] at hE
  by_cases h8 : (isAHLetter l && r == WinProp.wb .Numeric) = true
  · rw [if_pos h8] at hE; subst hE; exact ⟨_, _, rfl, Or.inl rfl⟩
  rw [if_neg h8] at hE
  by_cases h9 : (l == WinProp.wb .Numeric && isAHLetter r) = true
  · rw [if_pos h9] at hE; subst hE; exact ⟨_, _, rfl, Or.inl rfl⟩
  rw [if_neg h9] at hE
  by_cases h10 : lb = WinProp.wb .Numeric ∧ r = WinProp.wb .Numeric ∧
      (l = WinProp.wb .MidNum ∨ isMidNumLetQ l = true)
  · rw [if_pos h10] at hE; subst hE; exact ⟨_, _, rfl, Or.inl rfl⟩
  rw [if_neg h10] at hE
  by_cases h11 : l = WinProp.wb .Numeric ∧ la = WinProp.wb .Numeric ∧
      (r = WinProp.wb .MidNum ∨ isMidNumLetQ r = true)
  · rw [if_pos h11] at hE; subst hE; exact ⟨_, _, rfl, Or.inl rfl⟩
  rw [if_neg h11] at hE
  by_cases h12 : l = WinProp.wb .Katakana ∧ r = WinProp.wb .Katakana
  · rw [if_pos h12] at hE; subst hE; exact ⟨_, _, rfl, Or.inl rfl⟩
  rw [if_neg h12] at hE
  by_cases h13 : ((isAHLetter l || l == WinProp.wb .Numeric ||
      l == WinProp.wb .Katakana || l == WinProp.wb .ExtendNumLet) &&
      r == WinProp.wb .ExtendNumLet) = true
  · rw [if_pos h13] at hE; subst hE; exact ⟨_, _, rfl, Or.inl rfl⟩
  rw [if_neg h13] at hE
  by_cases h14 : ((isAHLetter r || r == WinProp.wb .Numeric ||
      r == WinProp.wb .Katakana) && l == WinProp.wb .ExtendNumLet) = true
  · rw [if_pos h14] at hE; subst hE; exact ⟨_, _, rfl, Or.inl rfl⟩
  rw [if_neg h14] at hE
  by_cases h15 : r = WinProp.wb .Regional_Indicator
  · rw [if_pos h15] at hE
    by_cases h16 : (nRI + 1) % 2 = 1
    · rw [if_pos h16] at hE; subst hE; exact ⟨_, _, rfl, Or.inl rfl⟩
    · rw [if_neg h16] at hE; subst hE; exact ⟨_, _, rfl, Or.inr rfl⟩
  rw [if_neg h15] at hE
  subst hE
  exact ⟨_, _, rfl, Or.inr rfl⟩

theorem extPicAt_lt {extPic : Nat → Bool} {text : List Nat} {pos : Nat}
    (h : isExtendedPictographicAt extPic text pos = true) : pos < text.length := by
  by_contra hc
  rw [isExtendedPictographicAt, if_neg hc] at h
  cases h

/-- Characterisation of the rule cascade from WB3c on: either it breaks at
end of text, yielding one position at or past the length, or it continues
with a valid state strictly ahead of the given position. -/
theorem ruleTail_spec (prop : Nat → WordBreakProperty) (extPic : Nat → Bool)
    (text : List Nat) (ifuel : Nat) (lb : WinProp) (nRI rp lap : Nat) (l r la : WinProp)
    (hr : r = wordbreakPropertyAt prop text rp)
    (hla : la = wordbreakPropertyAt prop text lap)
    (hrel : PosRel text rp lap)
    (hrp : rp ≤ text.length + 1) (hlap : lap ≤ text.length + 1)
    (hifuel : text.length + 2 ≤ ifuel) :
    ∀ ys o, ruleTail prop extPic text ifuel lb nRI rp lap l r la = (ys, o) →
      (o = none → ∃ t, ys = [t] ∧ rp ≤ t ∧ text.length ≤ t ∧ t ≤ text.length + 1) ∧
      (∀ st2, o = some st2 →
        StateInv prop text st2 ∧ st2.rightPos < text.length ∧ rp ≤ st2.rightPos ∧
        st2.rightPos < st2.lookaheadPos ∧ (∀ y ∈ ys, y ≤ st2.rightPos)) ∧
      (∀ y ∈ ys, rp ≤ y ∧ y ≤ text.length + 1) ∧ ys.length ≤ 1 ∧
      (WellFormedUTF16 text → isScalarBoundary text rp → isScalarBoundary text lap →
        (∀ y ∈ ys, isScalarBoundary text y) ∧
        ∀ st2, o = some st2 → isScalarBoundary text st2.lookaheadPos) ∧
      (∀ ifuel2, text.length + 2 ≤ ifuel2 →
        ruleTail prop extPic text ifuel2 lb nRI rp lap l r la = (ys, o)) := by
  rw [ruleTail]
  by_cases h3c : l = WinProp.wb .ZWJ ∧ isExtendedPictographicAt extPic text rp = true
  · rw [if_pos h3c]
    intro ys o heq
    obtain ⟨rfl, rfl⟩ : ([] : List Nat) = ys ∧
        (some ⟨rp, lap, lb, l, r, la, nRI⟩ : Option WalkState) = o := by
      rw [Prod.mk.injEq] at heq
      exact heq
    have hrplen : rp < text.length := extPicAt_lt h3c.2
    refine ⟨fun hc => (by cases hc), ?_, ?_, ?_, ?_, ?_⟩
    · intro st2 hst2
      obtain rfl : (⟨rp, lap, lb, l, r, la, nRI⟩ : WalkState) = st2 := Option.some.inj hst2
      refine ⟨⟨hla, (by rw [hr]; exact wbAt_ne_sot prop text rp), hlap⟩, hrplen, le_rfl, ?_,
        fun y hy => (by cases hy)⟩
      rcases hrel with h | h
      · exact h
      · omega
    · intro y hy
      cases hy
    · simp
    · intro _ _ hb
      refine ⟨fun y hy => (by cases hy), ?_⟩
      intro st2 hst2
      obtain rfl : (⟨rp, lap, lb, l, r, la, nRI⟩ : WalkState) = st2 := Option.some.inj hst2
      exact hb
    · intro ifuel2 _
      rw [ruleTail, if_pos h3c]
  · rw [if_neg h3c]
    by_cases h3d : l = WinProp.wb .WSegSpace ∧ r = WinProp.wb .WSegSpace
    · rw [if_pos h3d]
      intro ys o heq
      obtain ⟨rfl, rfl⟩ : ([] : List Nat) = ys ∧
          (some ⟨rp, lap, lb, l, r, la, nRI⟩ : Option WalkState) = o := by
        rw [Prod.mk.injEq] at heq
        exact heq
      have hrplen : rp < text.length := by
        rw [h3d.2] at hr
        exact lt_of_wbAt_eq_wb hr.symm
      refine ⟨fun hc => (by cases hc), ?_, ?_, ?_, ?_, ?_⟩
      · intro st2 hst2
        obtain rfl : (⟨rp, lap, lb, l, r, la, nRI⟩ : WalkState) = st2 := Option.some.inj hst2
        refine ⟨⟨hla, (by rw [hr]; exact wbAt_ne_sot prop text rp), hlap⟩, hrplen, le_rfl, ?_,
          fun y hy => (by cases hy)⟩
        rcases hrel with h | h
        · exact h
        · omega
      · intro y hy
        cases hy
      · simp
      · intro _ _ hb
        refine ⟨fun y hy => (by cases hy), ?_⟩
        intro st2 hst2
        obtain rfl : (⟨rp, lap, lb, l, r, la, nRI⟩ : WalkState) = st2 := Option.some.inj hst2
        exact hb
      · intro ifuel2 _
        rw [ruleTail, if_neg h3c, if_pos h3d]
    · rw [if_neg h3d]
      obtain ⟨rp2, lap2, r2, la2, heq1, hr2, hla2, hrel2, hmono2, hrp2, hlap2, hnofez, hfi1,
        hwf1⟩ := wb4SkipRight_spec prop text ifuel rp lap r la hr hla hrel hrp hlap
          (by omega)
      rw [heq1]
      dsimp only
      by_cases heot : r2 = WinProp.eot
      · rw [if_pos heot]
        intro ys o heq
        obtain ⟨rfl, rfl⟩ : ([rp2] : List Nat) = ys ∧ (none : Option WalkState) = o := by
          rw [Prod.mk.injEq] at heq
          exact heq
        have hlen2 : text.length ≤ rp2 := by
          rw [heot] at hr2
          exact wbAt_eq_eot_iff.1 hr2.symm
        refine ⟨fun _ => ⟨rp2, rfl, hmono2, hlen2, hrp2⟩, ?_, ?_, ?_, ?_, ?_⟩
        · intro st2 hst2
          cases hst2
        · intro y hy
          rcases List.mem_singleton.1 hy with rfl
          exact ⟨hmono2, hrp2⟩
        · simp
        · intro hwf' ha hb
          refine ⟨?_, fun st2 hst2 => (by cases hst2)⟩
          intro y hy
          rcases List.mem_singleton.1 hy with rfl
          exact (hwf1 hwf' ha hb).1
        · intro ifuel2 hif2
          rw [ruleTail, if_neg h3c, if_neg h3d, hfi1 ifuel2 (by omega)]
          dsimp only
          rw [if_pos heot]
      · rw [if_neg heot]
        obtain ⟨lap3, la3, heq2, hla3, hmono3, hlap3, hrel3, hfi2, hwf2⟩ :=
          wb4SkipLookahead_spec prop text ifuel lap2 la2 hla2 hlap2 (by omega)
        rw [heq2]
        dsimp only
        obtain ⟨n2, ys3, heq3, hys3⟩ := lateRules_spec lb l r2 la3 rp2 lap3 nRI
        rw [heq3]
        intro ys o heq
        obtain ⟨rfl, rfl⟩ : ys3 = ys ∧
            (some ⟨rp2, lap3, lb, l, r2, la3, n2⟩ : Option WalkState) = o := by
          rw [Prod.mk.injEq] at heq
          exact heq
        have hrp2len : rp2 < text.length := by
          by_contra hc
          exact heot (hr2.trans (wbAt_eq_eot_iff.2 (by omega)))
        have hrel23 : PosRel text rp2 lap3 := hrel3 rp2 hrel2
        have hlt23 : rp2 < lap3 := by
          rcases hrel23 with h | h
          · exact h
          · omega
        refine ⟨fun hc => (by cases hc), ?_, ?_, ?_, ?_, ?_⟩
        · intro st2 hst2
          obtain rfl : (⟨rp2, lap3, lb, l, r2, la3, n2⟩ : WalkState) = st2 :=
            Option.some.inj hst2
          refine ⟨⟨hla3, (by rw [hr2]; exact wbAt_ne_sot prop text rp2), hlap3⟩,
            hrp2len, hmono2, hlt23, ?_⟩
          intro y hy
          rcases hys3 with rfl | rfl
          · cases hy
          · rcases List.mem_singleton.1 hy with rfl
            exact le_rfl
        · intro y hy
          rcases hys3 with rfl | rfl
          · cases hy
          · rcases List.mem_singleton.1 hy with rfl
            exact ⟨hmono2, hrp2⟩
        · rcases hys3 with rfl | rfl
          · simp
          · simp
        · intro hwf' ha hb
          have hab := hwf1 hwf' ha hb
          refine ⟨?_, ?_⟩
          · intro y hy
            rcases hys3 with rfl | rfl
            · cases hy
            · rcases List.mem_singleton.1 hy with rfl
              exact hab.1
          · intro st2 hst2
            obtain rfl : (⟨rp2, lap3, lb, l, r2, la3, n2⟩ : WalkState) = st2 :=
              Option.some.inj hst2
            exact hwf2 hwf' hab.2
        · intro ifuel2 hif2
          rw [ruleTail, if_neg h3c, if_neg h3d, hfi1 ifuel2 (by omega)]
          dsimp only
          rw [if_neg heot, hfi2 ifuel2 (by omega)]
          dsimp only
          rw [heq3]

theorem positionAfter_ge_of_le {text : List Nat} {p : Nat} (h : p ≤ text.length) :
    p ≤ positionAfter text p := by
  rw [positionAfter]
  split
  · omega
  · split <;> omega

theorem lt_positionAfter_positionAfter {text : List Nat} {p : Nat} (h : p < text.length) :
    p < positionAfter text (positionAfter text p) := by
  have h1 : p < positionAfter text p := positionAfter_gt h
  rcases le_or_lt (positionAfter text p) text.length with hq | hq
  · exact lt_of_lt_of_le h1 (positionAfter_ge_of_le hq)
  · rw [positionAfter_of_ge (by omega)]
    exact h

/-- Characterisation of one full loop iteration (`stepBody`) started from a
stored state satisfying `StateInv`: a `none` outcome yields exactly one
position at or past the end of the text; a `some` outcome is a valid state
strictly ahead of the old lookahead position with `rightPos` still inside
the text; at most one position is yielded, all yields are bracketed between
the old lookahead position and `text.length + 1`, scalar-boundary alignment
is preserved on well-formed text, and the result does not depend on the
inner-loop fuel once it exceeds `text.length + 1`. -/
theorem stepBody_spec (prop : Nat → WordBreakProperty) (extPic : Nat → Bool)
    (text : List Nat) (ifuel : Nat) (st : WalkState)
    (hinv : StateInv prop text st) (hifuel : text.length + 2 ≤ ifuel) :
    ∀ ys o, stepBody prop extPic text ifuel st = (ys, o) →
      (o = none → ∃ t, ys = [t] ∧ st.lookaheadPos ≤ t ∧ text.length ≤ t ∧
        t ≤ text.length + 1) ∧
      (∀ st2, o = some st2 →
        StateInv prop text st2 ∧ st2.rightPos < text.length ∧
        st.lookaheadPos < st2.lookaheadPos ∧ st2.rightPos < st2.lookaheadPos ∧
        (∀ y ∈ ys, y ≤ st2.rightPos) ∧ st.lookaheadPos < text.length) ∧
      (∀ y ∈ ys, st.lookaheadPos ≤ y ∧ y ≤ text.length + 1) ∧ ys.length ≤ 1 ∧
      (WellFormedUTF16 text → isScalarBoundary text st.lookaheadPos →
        (∀ y ∈ ys, isScalarBoundary text y) ∧
        ∀ st2, o = some st2 → isScalarBoundary text st2.lookaheadPos) ∧
      (∀ ifuel2, text.length + 2 ≤ ifuel2 →
        stepBody prop extPic text ifuel2 st = (ys, o)) := by
  have hpair : st.lookahead = wordbreakPropertyAt prop text st.lookaheadPos := hinv.1
  have hrlen : st.lookaheadPos ≤ text.length + 1 := hinv.2.2
  rw [stepBody]
  dsimp only
  rw [if_neg hinv.2.1]
  by_cases h2 : st.lookahead = WinProp.eot
  · rw [if_pos h2]
    intro ys o heq
    obtain ⟨rfl, rfl⟩ : ([st.lookaheadPos] : List Nat) = ys ∧ (none : Option WalkState) = o := by
      rw [Prod.mk.injEq] at heq
      exact heq
    have hlen : text.length ≤ st.lookaheadPos := wbAt_eq_eot_iff.1 (hpair ▸ h2)
    refine ⟨fun _ => ⟨st.lookaheadPos, rfl, le_rfl, hlen, hrlen⟩,
      fun st2 hst2 => (by cases hst2), ?_, ?_, ?_, ?_⟩
    · intro y hy
      rcases List.mem_singleton.1 hy with rfl
      exact ⟨le_rfl, hrlen⟩
    · simp
    · intro hwf' ha
      refine ⟨?_, fun st2 hst2 => (by cases hst2)⟩
      intro y hy
      rcases List.mem_singleton.1 hy with rfl
      exact ha
    · intro ifuel2 _
      rw [stepBody]
      dsimp only
      rw [if_neg hinv.2.1, if_pos h2]
  · rw [if_neg h2]
    have hlplen : st.lookaheadPos < text.length := by
      by_contra hc
      exact h2 (hpair.trans (wbAt_eq_eot_iff.2 (by omega)))
    have hlt : st.lookaheadPos < positionAfter text st.lookaheadPos := positionAfter_gt hlplen
    have hXinv : StateInv prop text ⟨st.lookaheadPos, positionAfter text st.lookaheadPos,
        st.left, st.right, st.lookahead,
        wordbreakPropertyAt prop text (positionAfter text st.lookaheadPos), st.nRI⟩ := by
      refine ⟨rfl, ?_, positionAfter_le_len_succ text st.lookaheadPos⟩
      show st.lookahead ≠ WinProp.sot
      rw [hpair]
      exact wbAt_ne_sot prop text st.lookaheadPos
    by_cases h3 : st.right = WinProp.wb .CR ∧ st.lookahead = WinProp.wb .LF
    · rw [if_pos h3]
      intro ys o heq
      obtain ⟨rfl, rfl⟩ : ([] : List Nat) = ys ∧
          (some ⟨st.lookaheadPos, positionAfter text st.lookaheadPos, st.left, st.right,
            st.lookahead, wordbreakPropertyAt prop text (positionAfter text st.lookaheadPos),
            st.nRI⟩ : Option WalkState) = o := by
        rw [Prod.mk.injEq] at heq
        exact heq
      refine ⟨fun hc => (by cases hc), ?_, fun y hy => (by cases hy), ?_, ?_, ?_⟩
      · intro st2 hst2
        obtain rfl := Option.some.inj hst2
        exact ⟨hXinv, hlplen, hlt, hlt, fun y hy => (by cases hy), hlplen⟩
      · simp
      · intro hwf' ha
        refine ⟨fun y hy => (by cases hy), ?_⟩
        intro st2 hst2
        obtain rfl := Option.some.inj hst2
        exact isScalarBoundary_positionAfter hwf' ha
      · intro ifuel2 _
        rw [stepBody]
        dsimp only
        rw [if_neg hinv.2.1, if_neg h2, if_pos h3]
    · rw [if_neg h3]
      by_cases h3b : st.right = WinProp.wb .Newline ∨ st.right = WinProp.wb .CR ∨
          st.right = WinProp.wb .LF
      · rw [if_pos h3b]
        intro ys o heq
        obtain ⟨rfl, rfl⟩ : ([st.lookaheadPos] : List Nat) = ys ∧
            (some ⟨st.lookaheadPos, positionAfter text st.lookaheadPos, st.left, st.right,
              st.lookahead, wordbreakPropertyAt prop text (positionAfter text st.lookaheadPos),
              st.nRI⟩ : Option WalkState) = o := by
          rw [Prod.mk.injEq] at heq
          exact heq
        refine ⟨fun hc => (by cases hc), ?_, ?_, ?_, ?_, ?_⟩
        · intro st2 hst2
          obtain rfl := Option.some.inj hst2
          refine ⟨hXinv, hlplen, hlt, hlt, ?_, hlplen⟩
          intro y hy
          rcases List.mem_singleton.1 hy with rfl
          exact le_rfl
        · intro y hy
          rcases List.mem_singleton.1 hy with rfl
          exact ⟨le_rfl, by omega⟩
        · simp
        · intro hwf' ha
          refine ⟨?_, ?_⟩
          · intro y hy
            rcases List.mem_singleton.1 hy with rfl
            exact ha
          · intro st2 hst2
            obtain rfl := Option.some.inj hst2
            exact isScalarBoundary_positionAfter hwf' ha
        · intro ifuel2 _
          rw [stepBody]
          dsimp only
          rw [if_neg hinv.2.1, if_neg h2, if_neg h3, if_pos h3b]
      · rw [if_neg h3b]
        by_cases h3a : st.lookahead = WinProp.wb .Newline ∨ st.lookahead = WinProp.wb .CR ∨
            st.lookahead = WinProp.wb .LF
        · rw [if_pos h3a]
          intro ys o heq
          obtain ⟨rfl, rfl⟩ : ([st.lookaheadPos] : List Nat) = ys ∧
              (some ⟨st.lookaheadPos, positionAfter text st.lookaheadPos, st.left, st.right,
                st.lookahead, wordbreakPropertyAt prop text (positionAfter text st.lookaheadPos),
                st.nRI⟩ : Option WalkState) = o := by
            rw [Prod.mk.injEq] at heq
            exact heq
          refine ⟨fun hc => (by cases hc), ?_, ?_, ?_, ?_, ?_⟩
          · intro st2 hst2
            obtain rfl := Option.some.inj hst2
            refine ⟨hXinv, hlplen, hlt, hlt, ?_, hlplen⟩
            intro y hy
            rcases List.mem_singleton.1 hy with rfl
            exact le_rfl
          · intro y hy
            rcases List.mem_singleton.1 hy with rfl
            exact ⟨le_rfl, by omega⟩
          · simp
          · intro hwf' ha
            refine ⟨?_, ?_⟩
            · intro y hy
              rcases List.mem_singleton.1 hy with rfl
              exact ha
            · intro st2 hst2
              obtain rfl := Option.some.inj hst2
              exact isScalarBoundary_positionAfter hwf' ha
          · intro ifuel2 _
            rw [stepBody]
            dsimp only
            rw [if_neg hinv.2.1, if_neg h2, if_neg h3, if_neg h3b, if_pos h3a]
        · rw [if_neg h3a]
          by_cases hH : st.right = WinProp.wb .Other ∧
              (st.lookahead = WinProp.wb .Extend ∨ st.lookahead = WinProp.wb .Format) ∧
              wordbreakPropertyAt prop text (positionAfter text st.lookaheadPos) =
                WinProp.wb .ZWJ
          · rw [if_pos hH]
            dsimp only
            obtain hRT := ruleTail_spec prop extPic text ifuel st.left st.nRI
              (positionAfter text (positionAfter text st.lookaheadPos))
              (positionAfter text (positionAfter text (positionAfter text st.lookaheadPos)))
              (wordbreakPropertyAt prop text (positionAfter text st.lookaheadPos))
              (wordbreakPropertyAt prop text
                (positionAfter text (positionAfter text st.lookaheadPos)))
              (wordbreakPropertyAt prop text
                (positionAfter text (positionAfter text (positionAfter text st.lookaheadPos))))
              rfl rfl (posRel_positionAfter text _)
              (positionAfter_le_len_succ text _) (positionAfter_le_len_succ text _) hifuel
            intro ys o heq
            obtain ⟨hnone, hsome, hbnd, hlen1, hwfc, hfi⟩ := hRT ys o heq
            have hrpBgt : st.lookaheadPos <
                positionAfter text (positionAfter text st.lookaheadPos) :=
              lt_positionAfter_positionAfter hlplen
            refine ⟨?_, ?_, ?_, hlen1, ?_, ?_⟩
            · intro hn
              obtain ⟨t, ht1, ht2, ht3, ht4⟩ := hnone hn
              exact ⟨t, ht1, by omega, ht3, ht4⟩
            · intro st2 hst2
              obtain ⟨hIa, hIb, hIc, hId, hIe⟩ := hsome st2 hst2
              exact ⟨hIa, hIb, by omega, hId, hIe, hlplen⟩
            · intro y hy
              obtain ⟨hy1, hy2⟩ := hbnd y hy
              exact ⟨by omega, hy2⟩
            · intro hwf' ha
              have hb1 := isScalarBoundary_positionAfter hwf' ha
              have hb2 := isScalarBoundary_positionAfter hwf' hb1
              have hb3 := isScalarBoundary_positionAfter hwf' hb2
              exact hwfc hwf' hb2 hb3
            · intro ifuel2 hif2
              rw [stepBody]
              dsimp only
              rw [if_neg hinv.2.1, if_neg h2, if_neg h3, if_neg h3b, if_neg h3a, if_pos hH]
              dsimp only
              exact hfi ifuel2 hif2
          · rw [if_neg hH]
            dsimp only
            obtain hRT := ruleTail_spec prop extPic text ifuel st.left st.nRI
              st.lookaheadPos (positionAfter text st.lookaheadPos)
              st.right st.lookahead
              (wordbreakPropertyAt prop text (positionAfter text st.lookaheadPos))
              hpair rfl (posRel_positionAfter text _) hrlen
              (positionAfter_le_len_succ text _) hifuel
            intro ys o heq
            obtain ⟨hnone, hsome, hbnd, hlen1, hwfc, hfi⟩ := hRT ys o heq
            refine ⟨hnone, ?_, hbnd, hlen1, ?_, ?_⟩
            · intro st2 hst2
              obtain ⟨hIa, hIb, hIc, hId, hIe⟩ := hsome st2 hst2
              exact ⟨hIa, hIb, by omega, hId, hIe, hlplen⟩
            · intro hwf' ha
              exact hwfc hwf' ha (isScalarBoundary_positionAfter hwf' ha)
            · intro ifuel2 hif2
              rw [stepBody]
              dsimp only
              rw [if_neg hinv.2.1, if_neg h2, if_neg h3, if_neg h3b, if_neg h3a, if_neg hH]
              dsimp only
              exact hfi ifuel2 hif2

/-- The first iteration, started from the initial all-`sot` window, always
fires WB1: it yields position 0 and hands over the state whose window sits
over the first scalar value. -/
theorem stepBody_init (prop : Nat → WordBreakProperty) (extPic : Nat → Bool)
    (text : List Nat) (ifuel : Nat) :
    stepBody prop extPic text ifuel (initState prop text) =
      ([0], some ⟨0, positionAfter text 0, WinProp.sot, WinProp.sot,
        wordbreakPropertyAt prop text 0,
        wordbreakPropertyAt prop text (positionAfter text 0), 0⟩) := by
  rw [stepBody]
  dsimp only [initState]
  rw [if_pos rfl]

/-- Full characterisation of the main `do … while` loop (`walkAux`) from any
stored state: it produces a strictly increasing, nonempty list of positions
bounded between the state's lookahead position and `text.length + 1` whose
last element is at or past the end of the text; yields are scalar-aligned
on well-formed text; and the outcome is independent of both fuels once they
are large enough. -/
theorem walkAux_spec (prop : Nat → WordBreakProperty) (extPic : Nat → Bool)
    (text : List Nat) (ifuel : Nat) (hifuel : text.length + 2 ≤ ifuel) :
    ∀ fuel st, StateInv prop text st →
      text.length + 1 - st.lookaheadPos < fuel →
      (∃ t, (walkAux prop extPic text ifuel fuel st).getLast? = some t ∧
        text.length ≤ t ∧ t ≤ text.length + 1) ∧
      List.Chain' (· < ·) (walkAux prop extPic text ifuel fuel st) ∧
      (∀ y ∈ walkAux prop extPic text ifuel fuel st,
        st.lookaheadPos ≤ y ∧ y ≤ text.length + 1) ∧
      (WellFormedUTF16 text → isScalarBoundary text st.lookaheadPos →
        ∀ y ∈ walkAux prop extPic text ifuel fuel st, isScalarBoundary text y) ∧
      (∀ fuel2 ifuel2, text.length + 1 - st.lookaheadPos < fuel2 →
        text.length + 2 ≤ ifuel2 →
        walkAux prop extPic text ifuel2 fuel2 st = walkAux prop extPic text ifuel fuel st) ∧
      (walkAux prop extPic text ifuel fuel st).length ≤
        max 1 (text.length + 1 - st.lookaheadPos) := by
  intro fuel
  induction fuel with
  | zero =>
    intro st hinv hf
    omega
  | succ fuel ih =>
    intro st hinv hf
    obtain ⟨ys, o, hstep⟩ : ∃ ys o, stepBody prop extPic text ifuel st = (ys, o) :=
      ⟨_, _, rfl⟩
    obtain ⟨hnone, hsome, hbnd, hlen1, hwfc, hfi⟩ :=
      stepBody_spec prop extPic text ifuel st hinv hifuel ys o hstep
    cases o with
    | none =>
      obtain ⟨t, rfl, ht2, ht3, ht4⟩ := hnone rfl
      have hwalk : walkAux prop extPic text ifuel (fuel + 1) st = [t] := by
        rw [walkAux, hstep]
      rw [hwalk]
      refine ⟨⟨t, rfl, ht3, ht4⟩, List.chain'_singleton t, ?_, ?_, ?_, ?_⟩
      · intro y hy
        rcases List.mem_singleton.1 hy with rfl
        exact ⟨ht2, ht4⟩
      · intro hwf' ha y hy
        exact (hwfc hwf' ha).1 y hy
      · intro fuel2 ifuel2 hf2 hif2
        match fuel2, hf2 with
        | fuel2 + 1, _ => rw [walkAux, hfi ifuel2 hif2]
      · rw [List.length_singleton]
        exact Nat.le_max_left _ _
    | some st2 =>
      obtain ⟨hInv2, hrp2, hlt2, hltrl2, hyle, hlaplt⟩ := hsome st2 rfl
      have hwalk : walkAux prop extPic text ifuel (fuel + 1) st =
          ys ++ walkAux prop extPic text ifuel fuel st2 := by
        rw [walkAux, hstep]
        dsimp only
        rw [if_pos hrp2]
      have hb2 : st2.lookaheadPos ≤ text.length + 1 := hInv2.2.2
      have hmeas2 : text.length + 1 - st2.lookaheadPos < fuel := by
        omega
      obtain ⟨⟨t, hlast, hlen, hle⟩, hchain, hbnds, hwfr, hfirel, hlength⟩ := ih st2 hInv2 hmeas2
      have hrecne : walkAux prop extPic text ifuel fuel st2 ≠ [] := by
        intro hc
        rw [hc] at hlast
        cases hlast
      have hchys : List.Chain' (· < ·) ys := by
        rcases ys with _ | ⟨a, _ | ⟨b, l⟩⟩
        · exact List.chain'_nil
        · exact List.chain'_singleton a
        · exfalso
          simp at hlen1
      rw [hwalk]
      refine ⟨⟨t, ?_, hlen, hle⟩, ?_, ?_, ?_, ?_, ?_⟩
      · rw [List.getLast?_append_of_ne_nil ys hrecne]
        exact hlast
      · refine List.Chain'.append hchys hchain ?_
        intro x hx y' hy'
        have hxm : x ∈ ys := by
          obtain ⟨hn, rfl⟩ := List.mem_getLast?_eq_getLast hx
          exact List.getLast_mem hn
        have hym : y' ∈ walkAux prop extPic text ifuel fuel st2 :=
          List.mem_of_mem_head? hy'
        have h1 := hyle x hxm
        have h2 := (hbnds y' hym).1
        omega
      · intro y hy
        rcases List.mem_append.1 hy with hy | hy
        · exact (hbnd y hy)
        · have := hbnds y hy
          omega
      · intro hwf' ha y hy
        rcases List.mem_append.1 hy with hy | hy
        · exact (hwfc hwf' ha).1 y hy
        · exact hwfr hwf' ((hwfc hwf' ha).2 st2 rfl) y hy
      · intro fuel2 ifuel2 hf2 hif2
        match fuel2, hf2 with
        | fuel2 + 1, hf2 =>
          rw [walkAux, hfi ifuel2 hif2]
          dsimp only
          rw [if_pos hrp2, hfirel fuel2 ifuel2 (by omega) hif2]
      · rw [List.length_append]
        omega

theorem isScalarBoundary_zero {text : List Nat} (hwf : WellFormedUTF16 text) :
    isScalarBoundary text 0 := by
  refine ⟨Nat.zero_le _, ?_⟩
  rcases Nat.eq_zero_or_pos text.length with h | h
  · exact Or.inl h.symm
  · refine Or.inr ?_
    by_contra hc
    rw [Bool.not_eq_false] at hc
    obtain ⟨h0, _⟩ := (hwf 0 h).2 hc
    omega

/-- Structure of `findBoundaries` on a nonempty string: the result starts
with 0 (WB1), is strictly increasing, every later position lies between
the position after the first scalar value and `text.length + 1`, the last
position is at or past the end of the text, and on well-formed text every
position is scalar-aligned. -/
theorem findBoundaries_struct (prop : Nat → WordBreakProperty) (extPic : Nat → Bool)
    (text : List Nat) (h : 0 < text.length) :
    ∃ rest, findBoundaries prop extPic text = 0 :: rest ∧
      List.Chain' (· < ·) (0 :: rest) ∧
      (∀ y ∈ rest, positionAfter text 0 ≤ y ∧ y ≤ text.length + 1) ∧
      (∃ t, (0 :: rest).getLast? = some t ∧ text.length ≤ t ∧ t ≤ text.length + 1) ∧
      (WellFormedUTF16 text → ∀ y ∈ rest, isScalarBoundary text y) ∧
      (0 :: rest).length ≤ text.length + 1 := by
  have hinv1 : StateInv prop text ⟨0, positionAfter text 0, WinProp.sot, WinProp.sot,
      wordbreakPropertyAt prop text 0,
      wordbreakPropertyAt prop text (positionAfter text 0), 0⟩ :=
    ⟨rfl, wbAt_ne_sot prop text 0, positionAfter_le_len_succ text 0⟩
  have hpa0 : 0 < positionAfter text 0 := positionAfter_gt h
  obtain ⟨⟨t, hlast, hlen, hle⟩, hchain, hbnds, hwfr, _, hlength⟩ :=
    walkAux_spec prop extPic text (text.length + 2) (le_refl _) (text.length + 1)
      ⟨0, positionAfter text 0, WinProp.sot, WinProp.sot,
        wordbreakPropertyAt prop text 0,
        wordbreakPropertyAt prop text (positionAfter text 0), 0⟩ hinv1
      (by show text.length + 1 - positionAfter text 0 < text.length + 1; omega)
  have hunfold : findBoundaries prop extPic text =
      0 :: walkAux prop extPic text (text.length + 2) (text.length + 1)
        ⟨0, positionAfter text 0, WinProp.sot, WinProp.sot,
          wordbreakPropertyAt prop text 0,
          wordbreakPropertyAt prop text (positionAfter text 0), 0⟩ := by
    rw [findBoundaries, findBoundariesWithFuel, if_neg (by omega)]
    have h2 : text.length + 2 = text.length + 1 + 1 := rfl
    rw [h2, walkAux, stepBody_init]
    dsimp only
    rw [if_pos h, List.singleton_append]
  refine ⟨_, hunfold, ?_, hbnds, ⟨t, List.mem_getLast?_cons hlast, hlen, hle⟩, ?_, ?_⟩
  · rw [List.chain'_cons']
    refine ⟨?_, hchain⟩
    intro y hy
    have hyy : positionAfter text 0 ≤ y := (hbnds y (List.mem_of_mem_head? hy)).1
    omega
  · intro hwf'
    exact hwfr hwf' (isScalarBoundary_positionAfter hwf' (isScalarBoundary_zero hwf'))
  · have hlength2 : (walkAux prop extPic text (text.length + 2) (text.length + 1)
        ⟨0, positionAfter text 0, WinProp.sot, WinProp.sot,
          wordbreakPropertyAt prop text 0,
          wordbreakPropertyAt prop text (positionAfter text 0), 0⟩).length ≤
        max 1 (text.length + 1 - positionAfter text 0) := hlength
    rw [List.length_cons]
    omega

/-! ## The Regional_Indicator run -/

theorem riText_length (n : Nat) : (riText n).length = 2*n := by
  induction n with
  | zero => rfl
  | succ n ih =>
    show (0xD83C :: 0xDDE6 :: riText n).length = 2*(n+1)
    rw [List.length_cons, List.length_cons, ih]
    omega

theorem unitAt_riText (n : Nat) : ∀ m, m < n →
    unitAt (riText n) (2*m) = 0xD83C ∧ unitAt (riText n) (2*m+1) = 0xDDE6 := by
  induction n with
  | zero => intro m hm; omega
  | succ n ih =>
    intro m hm
    cases m with
    | zero => exact ⟨rfl, rfl⟩
    | succ m =>
      obtain ⟨h1, h2⟩ := ih m (by omega)
      constructor
      · have e : 2*(m+1) = 2*m + 1 + 1 := by ring
        rw [riText, e, unitAt, List.getD_cons_succ, List.getD_cons_succ]
        exact h1
      · have e : 2*(m+1)+1 = (2*m+1) + 1 + 1 := by ring
        rw [riText, e, unitAt, List.getD_cons_succ, List.getD_cons_succ]
        exact h2

theorem riText_get (n : Nat) : ∀ m, m < n →
    (riText n).get? (2*m) = some 0xD83C ∧ (riText n).get? (2*m+1) = some 0xDDE6 := by
  induction n with
  | zero => intro m hm; omega
  | succ n ih =>
    intro m hm
    cases m with
    | zero => exact ⟨rfl, rfl⟩
    | succ m =>
      obtain ⟨h1, h2⟩ := ih m (by omega)
      constructor
      · have e : 2*(m+1) = 2*m + 1 + 1 := by ring
        rw [riText, e]
        exact h1
      · have e : 2*(m+1)+1 = (2*m+1) + 1 + 1 := by ring
        rw [riText, e]
        exact h2

theorem codePointAt_riText_even {n m : Nat} (h : m < n) :
    codePointAt (riText n) (2*m) = 0x1F1E6 := by
  rw [codePointAt]
  rw [(unitAt_riText n m h).1, (riText_get n m h).2]
  decide

theorem wbAt_riText_even {n m : Nat} (h : m < n) :
    wordbreakPropertyAt sampleProp (riText n) (2*m) =
      WinProp.wb .Regional_Indicator := by
  rw [wordbreakPropertyAt, if_neg (by rw [riText_length]; omega), codePointAt_riText_even h]
  decide

theorem positionAfter_riText_even {n m : Nat} (h : m < n) :
    positionAfter (riText n) (2*m) = 2*m+2 := by
  rw [positionAfter, if_neg (by rw [riText_length]; omega),
    if_pos (by rw [(unitAt_riText n m h).1]; decide)]

theorem wbAt_riText_odd {n m : Nat} (h : m < n) :
    wordbreakPropertyAt sampleProp (riText n) (2*m+1) = WinProp.wb .Other := by
  rw [wordbreakPropertyAt, if_neg (by rw [riText_length]; omega)]
  rw [codePointAt]
  rw [(unitAt_riText n m h).2, if_neg (by decide)]
  decide

theorem wbAt_riText_cases (n p : Nat) :
    wordbreakPropertyAt sampleProp (riText n) p = WinProp.eot ∨
    wordbreakPropertyAt sampleProp (riText n) p = WinProp.wb .Regional_Indicator ∨
    wordbreakPropertyAt sampleProp (riText n) p = WinProp.wb .Other := by
  rcases le_or_lt (riText n).length p with hp | hp
  · exact Or.inl (wbAt_eq_eot_iff.2 hp)
  · rw [riText_length] at hp
    rcases Nat.mod_two_eq_zero_or_one p with hm | hm
    · have e : p = 2*(p/2) := by omega
      rw [e]
      exact Or.inr (Or.inl (wbAt_riText_even (by omega)))
    · have e : p = 2*(p/2)+1 := by omega
      rw [e]
      exact Or.inr (Or.inr (wbAt_riText_odd (by omega)))

theorem wb4SkipRight_nomove (prop : Nat → WordBreakProperty) (text : List Nat)
    (fuel rp lap : Nat) (r la : WinProp)
    (h : ¬(r = WinProp.wb .Format ∨ r = WinProp.wb .Extend ∨ r = WinProp.wb .ZWJ)) :
    wb4SkipRight prop text fuel rp lap r la = (rp, lap, r, la) := by
  cases fuel with
  | zero => rfl
  | succ fuel => rw [wb4SkipRight, if_neg h]

theorem wb4SkipLookahead_nomove (prop : Nat → WordBreakProperty) (text : List Nat)
    (fuel lap : Nat) (la : WinProp)
    (h : ¬(la = WinProp.wb .Format ∨ la = WinProp.wb .Extend ∨ la = WinProp.wb .ZWJ)) :
    wb4SkipLookahead prop text fuel lap la = (lap, la) := by
  cases fuel with
  | zero => rfl
  | succ fuel => rw [wb4SkipLookahead, if_neg h]

/-- Over a regional-indicator run, an iteration whose window falls on the
final indicator breaks at the end of the text (WB2). -/
theorem stepBody_riText_end (n k : Nat) (hk : k + 1 = n) (lb : WinProp) (ifuel : Nat) :
    stepBody sampleProp sampleExtPic (riText n) ifuel (riState n k lb) =
      ([2*k+2], none) := by
  have he : wordbreakPropertyAt sampleProp (riText n) (2*k+2) = WinProp.eot :=
    wbAt_eq_eot_iff.2 (by rw [riText_length]; omega)
  rw [stepBody]
  dsimp only [riState]
  rw [he, if_neg (by simp), if_pos rfl]

/-- Over a regional-indicator run, an iteration whose window falls on an
inner indicator increments the counter and yields a boundary exactly when
the counter becomes even (a flag pair has been completed). -/
theorem stepBody_riText_mid (n k : Nat) (hk : k + 1 < n) (lb : WinProp) (ifuel : Nat) :
    stepBody sampleProp sampleExtPic (riText n) ifuel (riState n k lb) =
      ((if (k + 1) % 2 = 1 then [] else [2*k+2]),
        some (riState n (k+1) (WinProp.wb .Regional_Indicator))) := by
  have hRI : wordbreakPropertyAt sampleProp (riText n) (2*k+2) =
      WinProp.wb .Regional_Indicator := by
    have h := wbAt_riText_even (n := n) (m := k+1) (by omega)
    rw [show 2*(k+1) = 2*k+2 from by ring] at h
    exact h
  have hpa : positionAfter (riText n) (2*k+2) = 2*k+2+2 := by
    have h := positionAfter_riText_even (n := n) (m := k+1) (by omega)
    rw [show 2*(k+1) = 2*k+2 from by ring] at h
    rw [h]
  have hcases := wbAt_riText_cases n (2*k+2+2)
  rw [stepBody]
  dsimp only [riState]
  rw [hRI, hpa]
  rw [if_neg (by simp), if_neg (by simp), if_neg (by simp), if_neg (by simp),
    if_neg (by simp), if_neg (by simp)]
  dsimp only
  rw [ruleTail]
  rw [if_neg (by simp), if_neg (by simp)]
  rw [wb4SkipRight_nomove sampleProp (riText n) ifuel _ _ _ _ (by simp)]
  dsimp only
  rw [if_neg (by simp)]
  rw [wb4SkipLookahead_nomove sampleProp (riText n) ifuel _ _
    (by rcases hcases with h | h | h <;> simp [h])]
  dsimp only
  rw [lateRules]
  rw [if_neg (by simp [isAHLetter]), if_neg (by simp [isAHLetter]),
    if_neg (by simp [isAHLetter]), if_neg (by simp), if_neg (by simp), if_neg (by simp),
    if_neg (by simp), if_neg (by simp [isAHLetter]), if_neg (by simp [isAHLetter]),
    if_neg (by simp), if_neg (by simp), if_neg (by simp),
    if_neg (by simp [isAHLetter]), if_neg (by simp [isAHLetter]), if_pos rfl]
  by_cases hpar : (k + 1) % 2 = 1
  · rw [if_pos hpar, if_pos hpar, show 2*(k+1) = 2*k+2 from by ring]
  · rw [if_neg hpar, if_neg hpar, show 2*(k+1) = 2*k+2 from by ring]

/-- The second iteration over a regional-indicator run of at least two
indicators: the counter becomes 1 (odd), so the boundary after the first
indicator is inhibited (WB15). -/
theorem stepBody_riText_one (n : Nat) (h2 : 2 ≤ n) (ifuel : Nat) :
    stepBody sampleProp sampleExtPic (riText n) ifuel
      ⟨0, positionAfter (riText n) 0, WinProp.sot, WinProp.sot,
        wordbreakPropertyAt sampleProp (riText n) 0,
        wordbreakPropertyAt sampleProp (riText n) (positionAfter (riText n) 0), 0⟩ =
      ([], some (riState n 1 WinProp.sot)) := by
  have hpa0 : positionAfter (riText n) 0 = 2 := by
    have h := positionAfter_riText_even (n := n) (m := 0) (by omega)
    rw [show 2*0 = 0 from by ring] at h
    rw [h]
  have hRI0 : wordbreakPropertyAt sampleProp (riText n) 0 =
      WinProp.wb .Regional_Indicator := by
    have h := wbAt_riText_even (n := n) (m := 0) (by omega)
    rw [show 2*0 = 0 from by ring] at h
    exact h
  have hRI2 : wordbreakPropertyAt sampleProp (riText n) 2 =
      WinProp.wb .Regional_Indicator := by
    have h := wbAt_riText_even (n := n) (m := 1) (by omega)
    rw [show 2*1 = 2 from by norm_num] at h
    exact h
  have hpa2 : positionAfter (riText n) 2 = 4 := by
    have h := positionAfter_riText_even (n := n) (m := 1) (by omega)
    rw [show 2*1 = 2 from by norm_num] at h
    rw [h]
  have hcases := wbAt_riText_cases n 4
  rw [stepBody]
  dsimp only
  rw [hpa0, hRI0, hRI2, hpa2]
  rw [if_neg (by simp), if_neg (by simp), if_neg (by simp), if_neg (by simp),
    if_neg (by simp), if_neg (by simp)]
  dsimp only
  rw [ruleTail]
  rw [if_neg (by simp), if_neg (by simp)]
  rw [wb4SkipRight_nomove sampleProp (riText n) ifuel _ _ _ _ (by simp)]
  dsimp only
  rw [if_neg (by simp)]
  rw [wb4SkipLookahead_nomove sampleProp (riText n) ifuel _ _
    (by rcases hcases with h | h | h <;> simp [h])]
  dsimp only
  rw [lateRules]
  rw [if_neg (by simp [isAHLetter]), if_neg (by simp [isAHLetter]),
    if_neg (by simp [isAHLetter]), if_neg (by simp), if_neg (by simp), if_neg (by simp),
    if_neg (by simp), if_neg (by simp [isAHLetter]), if_neg (by simp [isAHLetter]),
    if_neg (by simp), if_neg (by simp), if_neg (by simp),
    if_neg (by simp [isAHLetter]), if_neg (by simp [isAHLetter]), if_pos rfl]
  rw [if_pos (by norm_num)]
  rw [riState, show 2*1 = 2 from by norm_num, show 2*1+2 = 4 from by norm_num]

/-- The walk over the rest of a regional-indicator run produces exactly
`riTail`. -/
theorem walkAux_riState (n ifuel : Nat) :
    ∀ fuel k lb, 1 ≤ k → k < n → n - k ≤ fuel →
      walkAux sampleProp sampleExtPic (riText n) ifuel fuel (riState n k lb) =
        riTail n k := by
  intro fuel
  induction fuel with
  | zero =>
    intro k lb h1 h2 hf
    omega
  | succ fuel ih =>
    intro k lb h1 h2 hf
    by_cases hk : k + 1 < n
    · rw [walkAux, stepBody_riText_mid n k hk lb ifuel]
      dsimp only
      have hcond : (riState n (k+1) (WinProp.wb .Regional_Indicator)).rightPos <
          (riText n).length := by
        rw [riState, riText_length]
        show 2*(k+1) < 2*n
        omega
      rw [if_pos hcond, ih (k+1) (WinProp.wb .Regional_Indicator) (by omega) hk (by omega)]
      conv_rhs => rw [riTail]
      rw [dif_pos hk]
    · have hk1 : k + 1 = n := by omega
      rw [walkAux, stepBody_riText_end n k hk1 lb ifuel]
      dsimp only
      rw [riTail, dif_neg hk, show 2*k+2 = 2*n from by omega]

theorem riTail_mem (n : Nat) : ∀ k y, y ∈ riTail n k → y % 4 = 0 ∨ y = 2 * n := by
  have key : ∀ d k, n - k ≤ d → ∀ y, y ∈ riTail n k → y % 4 = 0 ∨ y = 2 * n := by
    intro d
    induction d with
    | zero =>
      intro k hk y hy
      rw [riTail, dif_neg (by omega)] at hy
      rcases List.mem_singleton.1 hy with rfl
      exact Or.inr rfl
    | succ d ihd =>
      intro k hk y hy
      rw [riTail] at hy
      by_cases h : k + 1 < n
      · rw [dif_pos h] at hy
        rcases List.mem_append.1 hy with hy | hy
        · by_cases hp : (k + 1) % 2 = 1
          · rw [if_pos hp] at hy
            cases hy
          · rw [if_neg hp] at hy
            rcases List.mem_singleton.1 hy with rfl
            left
            omega
        · exact ihd (k+1) (by omega) y hy
      · rw [dif_neg h] at hy
        rcases List.mem_singleton.1 hy with rfl
        exact Or.inr rfl
  exact fun k y hy => key (n - k) k (le_refl _) y hy

/-- Evaluation of `findBoundaries` on a run of `n ≥ 1` regional indicators: position 0,
then `riTail n 0` (a boundary after every completed pair, and the final
boundary `2*n`). -/
theorem findBoundaries_riText (n : Nat) (h : 1 ≤ n) :
    findBoundaries sampleProp sampleExtPic (riText n) = 0 :: riTail n 0 := by
  have hlen : (riText n).length = 2*n := riText_length n
  rw [findBoundaries, findBoundariesWithFuel, if_neg (by omega)]
  have e : (riText n).length + 2 = ((riText n).length + 1) + 1 := rfl
  rw [e, walkAux, stepBody_init]
  dsimp only
  rw [if_pos (by omega), List.singleton_append]
  congr 1
  by_cases h1 : n = 1
  · subst h1
    have hpa0 : positionAfter (riText 1) 0 = 2 := by
      have hp := positionAfter_riText_even (n := 1) (m := 0) (by omega)
      rw [show 2*0 = 0 from by ring] at hp
      rw [hp]
    have he : wordbreakPropertyAt sampleProp (riText 1) 2 = WinProp.eot :=
      wbAt_eq_eot_iff.2 (by rw [riText_length])
    rw [walkAux, stepBody]
    dsimp only
    rw [hpa0, he, if_neg (wbAt_ne_sot sampleProp (riText 1) 0), if_pos rfl]
    dsimp only
    rw [riTail, dif_neg (by omega)]
  · have h2 : 2 ≤ n := by omega
    rw [walkAux, stepBody_riText_one n h2]
    dsimp only
    have hcond : (riState n 1 WinProp.sot).rightPos < (riText n).length := by
      rw [riState, riText_length]
      show 2*1 < 2*n
      omega
    rw [if_pos hcond, List.nil_append,
      walkAux_riState n _ ((riText n).length) 1 WinProp.sot (le_refl 1) (by omega) (by omega)]
    conv_rhs => rw [riTail]
    rw [dif_pos (by omega), if_pos (by norm_num), List.nil_append]

/-! ## Substring algebra for the span reconstruction claim -/

theorem jsSubstring_self (text : List Nat) (b : Nat) : jsSubstring text b b = [] := by
  rw [jsSubstring]
  rw [Nat.max_self, Nat.min_self]
  exact List.drop_eq_nil_of_le (by rw [List.length_take]; omega)

theorem take_drop_glue (l : List Nat) (a b c : Nat) (hab : a ≤ b) (hbc : b ≤ c)
    (hal : a ≤ l.length) :
    (l.take b).drop a ++ (l.take c).drop b = (l.take c).drop a := by
  conv_rhs => rw [← List.take_append_drop b (l.take c)]
  rw [List.take_take, Nat.min_eq_left hbc]
  rw [List.drop_append_of_le_length (by rw [List.length_take]; omega)]

theorem jsSubstring_glue (text : List Nat) (s e f : Nat) (h1 : s ≤ e) (h2 : e ≤ f) :
    jsSubstring text s e ++ jsSubstring text e f = jsSubstring text s f := by
  rw [jsSubstring, jsSubstring, jsSubstring]
  have hab : min s text.length ≤ min e text.length := by omega
  have hbc : min e text.length ≤ min f text.length := by omega
  rw [Nat.max_eq_right hab, Nat.min_eq_left hab, Nat.max_eq_right hbc, Nat.min_eq_left hbc,
    Nat.max_eq_right (le_trans hab hbc), Nat.min_eq_left (le_trans hab hbc)]
  exact take_drop_glue text _ _ _ hab hbc (by omega)

theorem jsSubstring_zero_of_ge (text : List Nat) (t : Nat) (h : text.length ≤ t) :
    jsSubstring text 0 t = text := by
  rw [jsSubstring]
  rw [Nat.min_eq_left (Nat.zero_le _), Nat.min_eq_right h,
    Nat.max_eq_right (Nat.zero_le _), Nat.min_eq_left (Nat.zero_le _),
    List.take_length, List.drop_zero]

theorem chain_le_getLast : ∀ (rest : List Nat) (c : Nat), List.Chain (· < ·) c rest →
    c ≤ (c :: rest).getLast (List.cons_ne_nil c rest) := by
  intro rest
  induction rest with
  | nil =>
    intro c _
    exact le_refl c
  | cons d rest ih =>
    intro c hch
    rw [List.chain_cons] at hch
    have h2 := ih d hch.2
    rw [List.getLast_cons_cons]
    omega

/-- Concatenating the substrings cut at an increasing list of positions
telescopes to the substring from the first position to the last. -/
theorem boundaries_concat (text : List Nat) :
    ∀ (rest : List Nat) (b : Nat), List.Chain (· < ·) b rest →
      (((b :: rest).zip rest).map (fun p => jsSubstring text p.1 p.2)).foldr (· ++ ·) [] =
        jsSubstring text b ((b :: rest).getLast (List.cons_ne_nil b rest)) := by
  intro rest
  induction rest with
  | nil =>
    intro b _
    simp only [List.zip_nil_right, List.map_nil, List.foldr_nil, List.getLast_singleton]
    exact (jsSubstring_self text b).symm
  | cons c rest ih =>
    intro b hch
    rw [List.chain_cons] at hch
    rw [List.zip_cons_cons, List.map_cons, List.foldr_cons, ih c hch.2,
      List.getLast_cons_cons]
    exact jsSubstring_glue text b c _ (le_of_lt hch.1) (chain_le_getLast rest c hch.2)

/-! ## Fuel stabilisation -/

/-- Any fuel at least `text.length + 2` produces the same boundary list:
all three loops settle within that bound. -/
theorem findBoundariesWithFuel_stable (prop : Nat → WordBreakProperty) (extPic : Nat → Bool)
    (text : List Nat) (fuel : Nat) (hf : text.length + 2 ≤ fuel) :
    findBoundariesWithFuel prop extPic text fuel = findBoundaries prop extPic text := by
  rw [findBoundaries]
  by_cases h0 : text.length = 0
  · rw [findBoundariesWithFuel, findBoundariesWithFuel, if_pos h0, if_pos h0]
  · have hpos : 0 < text.length := by omega
    obtain ⟨f, rfl⟩ : ∃ f, fuel = f + 1 := ⟨fuel - 1, by omega⟩
    rw [findBoundariesWithFuel, findBoundariesWithFuel, if_neg h0, if_neg h0]
    have hinv1 : StateInv prop text ⟨0, positionAfter text 0, WinProp.sot, WinProp.sot,
        wordbreakPropertyAt prop text 0,
        wordbreakPropertyAt prop text (positionAfter text 0), 0⟩ :=
      ⟨rfl, wbAt_ne_sot prop text 0, positionAfter_le_len_succ text 0⟩
    have hpa0 : 0 < positionAfter text 0 := positionAfter_gt hpos
    have hL : walkAux prop extPic text (f + 1) (f + 1) (initState prop text) =
        0 :: walkAux prop extPic text (f + 1) f
          ⟨0, positionAfter text 0, WinProp.sot, WinProp.sot,
            wordbreakPropertyAt prop text 0,
            wordbreakPropertyAt prop text (positionAfter text 0), 0⟩ := by
      rw [walkAux, stepBody_init]
      dsimp only
      rw [if_pos hpos, List.singleton_append]
    have e : text.length + 2 = (text.length + 1) + 1 := rfl
    have hR : walkAux prop extPic text (text.length + 2) (text.length + 2)
          (initState prop text) =
        0 :: walkAux prop extPic text (text.length + 2) (text.length + 1)
          ⟨0, positionAfter text 0, WinProp.sot, WinProp.sot,
            wordbreakPropertyAt prop text 0,
            wordbreakPropertyAt prop text (positionAfter text 0), 0⟩ := by
      rw [e, walkAux, stepBody_init]
      dsimp only
      rw [if_pos hpos, List.singleton_append]
    rw [hL, hR]
    congr 1
    obtain ⟨_, _, _, _, hfirel, _⟩ := walkAux_spec prop extPic text (text.length + 2)
      (le_refl _) (text.length + 1)
      ⟨0, positionAfter text 0, WinProp.sot, WinProp.sot,
        wordbreakPropertyAt prop text 0,
        wordbreakPropertyAt prop text (positionAfter text 0), 0⟩ hinv1
      (by show text.length + 1 - positionAfter text 0 < text.length + 1; omega)
    exact hfirel f (f + 1)
      (by show text.length + 1 - positionAfter text 0 < f; omega) (by omega)

/-! ## Claim theorems -/

/-- Claim C1, counterexample: on the lone high surrogate `[0xD800]` the
engine yields `[0, 2]`, whose last element is 2 = |s| + 1, not |s| = 1, so
the last element of the boundary sequence is not always the string
length. -/
theorem c1_counterexample :
    findBoundaries sampleProp sampleExtPic [0xD800] = [0, 2] ∧
    ([0xD800] : List Nat).length = 1 := by
  constructor
  · decide
  · rfl

/-- Claim C1, amended: the boundary sequence is finite with length at most
|s| + 1; it is empty for the empty string; otherwise its first element is 0
and its last element lies between |s| and |s| + 1 (it can overshoot by one
on ill-formed UTF-16 input, but equals |s| on well-formed input by the C9
theorem). -/
theorem c1_boundaries_endpoints (prop : Nat → WordBreakProperty) (extPic : Nat → Bool)
    (text : List Nat) :
    (text.length = 0 → findBoundaries prop extPic text = []) ∧
    (0 < text.length →
      ∃ rest t, findBoundaries prop extPic text = 0 :: rest ∧
        (0 :: rest).getLast? = some t ∧ text.length ≤ t ∧ t ≤ text.length + 1 ∧
        (0 :: rest).length ≤ text.length + 1) := by
  constructor
  · intro h0
    rw [findBoundaries, findBoundariesWithFuel, if_pos h0]
  · intro hpos
    obtain ⟨rest, hb, _, _, ⟨t, hlastq, hlen, hle⟩, _, hlength⟩ :=
      findBoundaries_struct prop extPic text hpos
    exact ⟨rest, t, hb, hlastq, hlen, hle, hlength⟩

theorem c1_boundaries_endpoints_witness :
    0 < ([0x41] : List Nat).length ∧
    ∃ rest t, findBoundaries sampleProp sampleExtPic [0x41] = 0 :: rest ∧
      (0 :: rest).getLast? = some t ∧ ([0x41] : List Nat).length ≤ t ∧
      t ≤ ([0x41] : List Nat).length + 1 ∧
      (0 :: rest).length ≤ ([0x41] : List Nat).length + 1 :=
  ⟨by decide, (c1_boundaries_endpoints sampleProp sampleExtPic [0x41]).2 (by decide)⟩

/-- Claim C2: for every property assignment and every input, the positions
yielded by `findBoundaries` are strictly increasing. -/
theorem c2_boundaries_strictly_increasing (prop : Nat → WordBreakProperty)
    (extPic : Nat → Bool) (text : List Nat) :
    List.Chain' (· < ·) (findBoundaries prop extPic text) := by
  by_cases h0 : text.length = 0
  · rw [findBoundaries, findBoundariesWithFuel, if_pos h0]
    exact List.chain'_nil
  · obtain ⟨rest, hb, hchain, _⟩ := findBoundaries_struct prop extPic text (by omega)
    rw [hb]
    exact hchain

/-- Claim C3: every span yielded by `findSpans` carries the input as its
source and its `text` getter returns the substring of the input between its
`start` and `end`; concatenating the `text` of all spans, in order,
reconstructs the input exactly. -/
theorem c3_spans_reconstruct (prop : Nat → WordBreakProperty) (extPic : Nat → Bool)
    (text : List Nat) :
    (∀ sp ∈ findSpans prop extPic text,
      sp.source = text ∧ sp.text = jsSubstring text sp.start sp.endPos) ∧
    ((findSpans prop extPic text).map LazySpan.text).foldr (· ++ ·) [] = text := by
  constructor
  · intro sp hsp
    rw [findSpans] at hsp
    by_cases h0 : (findBoundaries prop extPic text).length = 0
    · rw [if_pos h0] at hsp
      cases hsp
    · rw [if_neg h0] at hsp
      obtain ⟨p, hp, rfl⟩ := List.mem_map.1 hsp
      exact ⟨rfl, rfl⟩
  · by_cases h0 : text.length = 0
    · obtain rfl := List.length_eq_zero.1 h0
      rfl
    · obtain ⟨rest, hb, hchain, hbnds, ⟨t, hlastq, hlen, hle⟩, hwf, hlength⟩ :=
        findBoundaries_struct prop extPic text (by omega)
      rw [findSpans]
      rw [hb, if_neg (by simp), List.tail_cons]
      have hmaps : (((0 :: rest).zip rest).map
            (fun p => (⟨text, p.1, p.2⟩ : LazySpan))).map LazySpan.text =
          ((0 :: rest).zip rest).map (fun p => jsSubstring text p.1 p.2) := by
        rw [List.map_map]
        rfl
      have hch : List.Chain (· < ·) 0 rest := hchain
      rw [hmaps, boundaries_concat text rest 0 hch]
      have hgl : (0 :: rest).getLast (List.cons_ne_nil 0 rest) = t := by
        have h2 := List.getLast?_eq_getLast_of_ne_nil (l := 0 :: rest)
          (List.cons_ne_nil 0 rest)
        rw [h2] at hlastq
        exact Option.some.inj hlastq
      rw [hgl]
      exact jsSubstring_zero_of_ge text t hlen

theorem c3_spans_reconstruct_witness :
    (⟨[0x41], 0, 1⟩ : LazySpan) ∈ findSpans sampleProp sampleExtPic [0x41] ∧
    ((⟨[0x41], 0, 1⟩ : LazySpan).source = [0x41] ∧
      (⟨[0x41], 0, 1⟩ : LazySpan).text =
        jsSubstring [0x41] (⟨[0x41], 0, 1⟩ : LazySpan).start
          (⟨[0x41], 0, 1⟩ : LazySpan).endPos) ∧
    ((findSpans sampleProp sampleExtPic [0x41]).map LazySpan.text).foldr (· ++ ·) [] =
      [0x41] :=
  ⟨by decide,
    (c3_spans_reconstruct sampleProp sampleExtPic [0x41]).1 ⟨[0x41], 0, 1⟩ (by decide),
    (c3_spans_reconstruct sampleProp sampleExtPic [0x41]).2⟩

/-- Claim C4, counterexample: `split` keeps the chunk `"?"` (code point
0x3F), which contains no scalar with Word_Break property in {ALetter,
Hebrew_Letter, Numeric, Katakana}; the filter is therefore not the
word-like-character rule the claim states. -/
theorem c4_counterexample :
    split sampleProp sampleExtPic [0x3F] = [[0x3F]] ∧
    containsWordLike sampleProp [0x3F] = false := by
  constructor
  · decide
  · decide

/-- Claim C4, amended: `split` returns exactly those span texts that
contain at least one scalar whose Word_Break property is not whitespace
(not CR, LF, Newline or WSegSpace) — the `isNonSpace` filter of the source,
not the word-like filter of the claim. -/
theorem c4_split_filter_amended (prop : Nat → WordBreakProperty) (extPic : Nat → Bool)
    (text chunk : List Nat) :
    chunk ∈ split prop extPic text ↔
      chunk ∈ (findSpans prop extPic text).map LazySpan.text ∧
        ∃ c ∈ codePointsOf chunk,
          prop c ≠ WordBreakProperty.CR ∧ prop c ≠ WordBreakProperty.LF ∧
          prop c ≠ WordBreakProperty.Newline ∧ prop c ≠ WordBreakProperty.WSegSpace := by
  rw [split, List.mem_filter]
  constructor
  · rintro ⟨hmem, hns⟩
    refine ⟨hmem, ?_⟩
    rw [isNonSpace] at hns
    have hall : ¬ (((codePointsOf chunk).map prop).all fun wbp =>
        wbp == WordBreakProperty.CR || wbp == WordBreakProperty.LF ||
        wbp == WordBreakProperty.Newline || wbp == WordBreakProperty.WSegSpace) = true := by
      intro hc
      rw [hc] at hns
      cases hns
    rw [List.all_eq_true] at hall
    push_neg at hall
    obtain ⟨wbp, hw, hfw⟩ := hall
    obtain ⟨c, hc, rfl⟩ := List.mem_map.1 hw
    refine ⟨c, hc, ?_⟩
    have hfw2 : ¬(prop c = WordBreakProperty.CR ∨ prop c = WordBreakProperty.LF ∨
        prop c = WordBreakProperty.Newline ∨ prop c = WordBreakProperty.WSegSpace) := by
      intro hor
      apply hfw
      rcases hor with h | h | h | h <;> simp [h]
    push_neg at hfw2
    exact hfw2
  · rintro ⟨hmem, c, hc, h1, h2, h3, h4⟩
    refine ⟨hmem, ?_⟩
    rw [isNonSpace, Bool.not_eq_true', List.all_eq_false]
    refine ⟨prop c, List.mem_map.2 ⟨c, hc, rfl⟩, ?_⟩
    simp [h1, h2, h3, h4]

/-- Claim C7: on the WB3c fixture `"🧚🏽‍♂️"` (UTF-16 units
D83E DDDA D83C DFFD 200D 2642 FE0F) the engine yields exactly 0 and 7: the
whole string is one indivisible span, because the lookahead HACK advances
the window two scalars so that WB3c fires on the ZWJ. -/
theorem c7_wb3c_fixture :
    findBoundaries sampleProp sampleExtPic
      [0xD83E, 0xDDDA, 0xD83C, 0xDFFD, 0x200D, 0x2642, 0xFE0F] = [0, 7] := by
  decide

/-- Claim C8, counterexample: applying the claim's counter discipline on
every step (engine `findBoundariesClaimRI`) suppresses even the WB1
boundary at 0 on a single regional indicator, yielding `[2]`, while the
real engine yields `[0, 2]`: the code's counter lives at the end of the
rule cascade, not on every step. -/
theorem c8_counterexample :
    findBoundariesClaimRI sampleProp sampleExtPic (riText 1) = [2] ∧
    findBoundaries sampleProp sampleExtPic (riText 1) = [0, 2] := by
  constructor
  · decide
  · decide

/-- Claim C8, amended: on a run of `n ≥ 1` regional indicators the engine
yields 0, a boundary after every completed pair of indicators, and the
final boundary `2*n` (list `riTail n 0`); in particular every boundary
strictly inside the run is a multiple of four code units, so no flag pair
is ever split. -/
theorem c8_regional_indicator_amended (n : Nat) (h : 1 ≤ n) :
    findBoundaries sampleProp sampleExtPic (riText n) = 0 :: riTail n 0 ∧
    ∀ y ∈ riTail n 0, y % 4 = 0 ∨ y = 2 * n :=
  ⟨findBoundaries_riText n h, riTail_mem n 0⟩

theorem c8_regional_indicator_amended_witness :
    1 ≤ 5 ∧
    (findBoundaries sampleProp sampleExtPic (riText 5) = 0 :: riTail 5 0 ∧
      ∀ y ∈ riTail 5 0, y % 4 = 0 ∨ y = 2 * 5) :=
  ⟨by decide, c8_regional_indicator_amended 5 (by decide)⟩

/-- Claim C9, counterexample: on the ill-formed input
`[0xD800, 0xD83D, 0xDCA9]` (a lone high surrogate followed by a surrogate
pair) the engine yields position 2, which falls between the high and the
low code unit of the pair `D83D DCA9`: on ill-formed UTF-16 the engine CAN
emit a mid-surrogate-pair position. -/
theorem c9_counterexample :
    findBoundaries sampleProp sampleExtPic [0xD800, 0xD83D, 0xDCA9] = [0, 2, 3] ∧
    midSurrogatePair [0xD800, 0xD83D, 0xDCA9] 2 := by
  constructor
  · decide
  · refine ⟨by decide, by decide, by decide, by decide⟩

/-- Claim C9, amended: on every well-formed UTF-16 input the engine never
yields a position that falls inside a surrogate pair — every yielded
position is a valid scalar-value boundary.  (The no-throw half of the claim
holds by construction: the embedding is total.) -/
theorem c9_no_mid_surrogate_amended (prop : Nat → WordBreakProperty) (extPic : Nat → Bool)
    (text : List Nat) (hwf : WellFormedUTF16 text) :
    ∀ y ∈ findBoundaries prop extPic text, isScalarBoundary text y := by
  intro y hy
  by_cases h0 : text.length = 0
  · rw [findBoundaries, findBoundariesWithFuel, if_pos h0] at hy
    cases hy
  · obtain ⟨rest, hb, _, _, _, hwfy, _⟩ := findBoundaries_struct prop extPic text (by omega)
    rw [hb] at hy
    rcases List.mem_cons.1 hy with rfl | hy
    · exact isScalarBoundary_zero hwf
    · exact hwfy hwf y hy

theorem c9_no_mid_surrogate_amended_witness :
    WellFormedUTF16 [0xD83D, 0xDCA9] ∧
    ∀ y ∈ findBoundaries sampleProp sampleExtPic [0xD83D, 0xDCA9],
      isScalarBoundary [0xD83D, 0xDCA9] y := by
  have hwf : WellFormedUTF16 [0xD83D, 0xDCA9] := by
    intro i hi
    match i, hi with
    | 0, _ => exact ⟨fun _ => (by decide), fun h => absurd h (by decide)⟩
    | 1, _ => exact ⟨fun h => absurd h (by decide), fun _ => (by decide)⟩
  exact ⟨hwf, c9_no_mid_surrogate_amended sampleProp sampleExtPic [0xD83D, 0xDCA9] hwf⟩

/-- Claim C10: `positionAfter` returns the string length at or past the
end, jumps two units over a high surrogate and one unit otherwise — in
particular it strictly increases in-range positions — and consequently
every fuel bound of at least `|text| + 2` gives the same `findBoundaries`
result: all three loops terminate within that bound. -/
theorem c10_positionAfter_termination (text : List Nat) (pos : Nat) :
    (text.length ≤ pos → positionAfter text pos = text.length) ∧
    (pos < text.length →
      positionAfter text pos =
        (if isStartOfSurrogatePair (unitAt text pos) = true then pos + 2 else pos + 1) ∧
      pos < positionAfter text pos) ∧
    (∀ (prop : Nat → WordBreakProperty) (extPic : Nat → Bool) (fuel : Nat),
      text.length + 2 ≤ fuel →
      findBoundariesWithFuel prop extPic text fuel = findBoundaries prop extPic text) := by
  refine ⟨positionAfter_of_ge, ?_,
    fun prop extPic fuel hf => findBoundariesWithFuel_stable prop extPic text fuel hf⟩
  intro hp
  constructor
  · rw [positionAfter, if_neg (by omega)]
  · exact positionAfter_gt hp

theorem c10_positionAfter_termination_witness :
    (0 < ([0xD800, 0xDC00] : List Nat).length ∧
      positionAfter [0xD800, 0xDC00] 0 =
        (if isStartOfSurrogatePair (unitAt [0xD800, 0xDC00] 0) = true then 0 + 2
         else 0 + 1) ∧
      0 < positionAfter [0xD800, 0xDC00] 0) ∧
    ([0xD800, 0xDC00] : List Nat).length + 2 ≤ 5 ∧
    findBoundariesWithFuel sampleProp sampleExtPic [0xD800, 0xDC00] 5 =
      findBoundaries sampleProp sampleExtPic [0xD800, 0xDC00] :=
  ⟨⟨by decide, (c10_positionAfter_termination [0xD800, 0xDC00] 0).2.1 (by decide)⟩,
    by decide,
    (c10_positionAfter_termination [0xD800, 0xDC00] 0).2.2 sampleProp sampleExtPic 5
      (by decide)⟩

end UDWB

